import Mathlib

/-!
Verification of the speech-synchronization engine of `immersive-speak`:
the chunker (`chunkTokens`), the aligner (`buildTimingMap`), the timing
normalizer (`normalizeTimingMap` / `buildFallbackMap`), the playback
word lookup (`findWordIndexByTime`), and the roam debounce / session
error-handling state machines.  Times are modelled as rationals,
JavaScript arrays as lists, and the mutable loops of the source as
explicit recursions carrying the same state.
-/

namespace ImmersiveSpeak

/-! ## Chunker -/

/-- One output chunk of `chunkTokens`: the space-joined text and how many
source tokens it consumed (`{ text, count }` in the source). -/
structure Chunk where
  text : String
  count : ℕ
deriving Repr, DecidableEq

/-- JavaScript `Array.prototype.join(" ")` on a list of tokens. -/
def joinSp : List String → String
  | [] => ""
  | [t] => t
  | t :: rest => t ++ " " ++ joinSp rest

/-- The character class `[\"')\\]` of the source regex
`/[.!?]+[\"')\\]]*$/`: a JavaScript class is closed by the first
unescaped `]`, so it contains exactly `"` `'` `)` `\` — the `]` that
follows in the pattern is a separate literal, not a class member. -/
def isCloser (c : Char) : Bool :=
  c = '"' || c = '\'' || c = ')' || c = '\\'

/-- Sentence-terminal punctuation, the class `[.!?]` of the source regex. -/
def isTerminal (c : Char) : Bool :=
  c = '.' || c = '!' || c = '?'

/-- JavaScript `String.prototype.trim`, modelled structurally over the
character list (kept kernel-computable, unlike `String.trim`). -/
def trimWs (s : String) : String :=
  String.mk
    (((s.toList.dropWhile Char.isWhitespace).reverse.dropWhile
        Char.isWhitespace).reverse)

/-- `isSentenceEnd(text)`: whether `/[.!?]+[\"')\\]]*$/` matches the
trimmed token.  Since the class closes at the first unescaped `]`, the
regex requires at the end of the string: one or more of `.` `!` `?`,
then exactly one character of `isCloser`, then zero or more literal `]`
characters — equivalently, after dropping trailing `]`s the last
character is a closer and the one before it is terminal punctuation. -/
def isSentenceEnd (s : String) : Bool :=
  match (trimWs s).toList.reverse.dropWhile (· = ']') with
  | c :: d :: _ => isCloser c && isTerminal d
  | _ => false

/-- The sentence-boundary lookahead loop inside `chunkTokens`: scan the
remaining tokens, adding `1 + token.length` to the running `totalLen`;
give up (`none`) as soon as the running length exceeds the limit
`maxChars + tolerance`, otherwise return how many tokens (≥ 1) it takes to
reach the first token passing `isSentenceEnd`. -/
def findBoundary (limit : ℕ) : List String → ℕ → Option ℕ
  | [], _ => none
  | t :: rest, totalLen =>
    let tl := totalLen + 1 + t.length
    if limit < tl then none
    else if isSentenceEnd t then some 1
    else (findBoundary limit rest tl).map (· + 1)

theorem findBoundary_pos {limit : ℕ} {l : List String} {tot k : ℕ}
    (h : findBoundary limit l tot = some k) : 1 ≤ k := by
  induction l generalizing tot k with
  | nil => simp [findBoundary] at h
  | cons t rest ih =>
    simp only [findBoundary] at h
    split at h
    · simp at h
    · split at h
      · simp at h
        omega
      · obtain ⟨k', hk', rfl⟩ := Option.map_eq_some'.mp h
        omega

/-- The main loop of `chunkTokens`, with the accumulator array `current`
and its running joined length `length` as explicit state.  The branch
structure mirrors the source: when adding the next token would overflow
`maxChars` and the accumulator is non-empty, either extend through a
nearby sentence boundary found by `findBoundary`, or cut hard. -/
def chunkTokensGo (maxChars tolerance : ℕ) :
    List String → List String → ℕ → List Chunk
  | [], current, _ =>
    if current = [] then [] else [⟨joinSp current, current.length⟩]
  | t :: rest, current, length =>
    let addLength := (if current = [] then 0 else 1) + t.length
    if maxChars < length + addLength ∧ current ≠ [] then
      match hb : findBoundary (maxChars + tolerance) (t :: rest) length with
      | some k =>
        ⟨joinSp (current ++ (t :: rest).take k), current.length + k⟩ ::
          chunkTokensGo maxChars tolerance ((t :: rest).drop k) [] 0
      | none =>
        ⟨joinSp current, current.length⟩ ::
          chunkTokensGo maxChars tolerance rest [t] t.length
    else
      chunkTokensGo maxChars tolerance rest (current ++ [t]) (length + addLength)
termination_by toks _ _ => toks.length
decreasing_by
  · have hk := findBoundary_pos hb
    simp [List.length_drop]
    omega
  · simp
  · simp

/-- `chunkTokens(tokens, maxChars)`.  The source tolerance is
`Math.round(maxChars * 0.5)`, which for a natural `maxChars` equals
`(maxChars + 1) / 2` (round half up). -/
def chunkTokens (tokens : List String) (maxChars : ℕ) : List Chunk :=
  chunkTokensGo maxChars ((maxChars + 1) / 2) tokens [] 0

/-- The constructor applied to an accumulator when the chunker emits it. -/
def mkChunk (l : List String) : Chunk := ⟨joinSp l, l.length⟩

theorem findBoundary_le {limit : ℕ} {l : List String} {tot k : ℕ}
    (h : findBoundary limit l tot = some k) : k ≤ l.length := by
  induction l generalizing tot k with
  | nil => simp [findBoundary] at h
  | cons t rest ih =>
    simp only [findBoundary] at h
    split at h
    · simp at h
    · split at h
      · simp at h
        simp [← h]
      · obtain ⟨k', hk', rfl⟩ := Option.map_eq_some'.mp h
        have := ih hk'
        simp
        omega

theorem chunkTokensGo_partition (maxChars tolerance : ℕ)
    (toks current : List String) (length : ℕ) :
    ∃ ls : List (List String),
      ls.flatten = current ++ toks ∧
      chunkTokensGo maxChars tolerance toks current length = ls.map mkChunk ∧
      ∀ l ∈ ls, l ≠ [] := by
  induction toks, current, length using chunkTokensGo.induct maxChars tolerance with
  | case1 x =>
    exact ⟨[], by simp [chunkTokensGo]⟩
  | case2 current x hc =>
    exact ⟨[current], by simp [hc, chunkTokensGo, mkChunk]⟩
  | case3 t rest current length addLength hcond k hb ih =>
    obtain ⟨ls', h1, h2, h4⟩ := ih
    have hk := findBoundary_le hb
    refine ⟨(current ++ (t :: rest).take k) :: ls', ?_, ?_, ?_⟩
    · simp only [List.flatten_cons, h1, List.nil_append, List.append_assoc,
        List.take_append_drop]
    · rw [chunkTokensGo]
      rw [if_pos (by simpa using hcond)]
      have hc : (current ++ (t :: rest).take k).length = current.length + k := by
        rw [List.length_append, List.length_take, Nat.min_eq_left hk]
      split
      next k' heq =>
        rw [hb] at heq
        obtain rfl := Option.some.inj heq
        simp [h2, hc, mkChunk]
      next heq =>
        rw [hb] at heq
        exact Option.noConfusion heq
    · intro l hl
      rcases List.mem_cons.mp hl with rfl | hl
      · simp [hcond.2]
      · exact h4 _ hl
  | case4 t rest current length addLength hcond hb ih =>
    obtain ⟨ls', h1, h2, h4⟩ := ih
    refine ⟨current :: ls', ?_, ?_, ?_⟩
    · simp [h1]
    · rw [chunkTokensGo]
      rw [if_pos (by simpa using hcond)]
      split
      next k' heq =>
        rw [hb] at heq
        exact Option.noConfusion heq
      next heq =>
        simp [h2, mkChunk]
    · intro l hl
      rcases List.mem_cons.mp hl with rfl | hl
      · exact hcond.2
      · exact h4 _ hl
  | case5 t rest current length addLength hcond ih =>
    obtain ⟨ls', h1, h2, h4⟩ := ih
    refine ⟨ls', ?_, ?_, h4⟩
    · simp [h1]
    · rw [chunkTokensGo]
      rw [if_neg (by simpa using hcond)]
      exact h2

/-- C2: for every token list and every `maxChars`, the chunks returned by
`chunkTokens` partition the input: there is a decomposition of the input
into non-empty consecutive runs of whole tokens such that each chunk is
the single-space join of its run together with that run's token count,
the chunk counts sum to the number of input tokens, and empty input
yields an empty chunk list. -/
theorem chunkTokens_partitions_input (tokens : List String) (maxChars : ℕ) :
    (∃ ls : List (List String),
        ls.flatten = tokens ∧
        chunkTokens tokens maxChars = ls.map mkChunk ∧
        ∀ l ∈ ls, l ≠ []) ∧
    ((chunkTokens tokens maxChars).map Chunk.count).sum = tokens.length ∧
    chunkTokens [] maxChars = [] := by
  obtain ⟨ls, h1, h2, h4⟩ :=
    chunkTokensGo_partition maxChars ((maxChars + 1) / 2) tokens [] 0
  simp only [List.nil_append] at h1
  refine ⟨⟨ls, h1, h2, h4⟩, ?_, ?_⟩
  · show ((chunkTokensGo maxChars ((maxChars + 1) / 2) tokens [] 0).map Chunk.count).sum
        = tokens.length
    rw [h2, List.map_map]
    have hcomp : (Chunk.count ∘ mkChunk) = List.length := rfl
    rw [hcomp, ← List.length_flatten, h1]
  · simp [chunkTokens, chunkTokensGo]

/-- Joined-length contribution of appending tokens after a non-empty
accumulator: one separator plus the token, per token. -/
def sepLen (l : List String) : ℕ := (l.map (fun t => 1 + t.length)).sum

theorem joinSp_snoc_length (current : List String) (t : String)
    (h : current ≠ []) :
    (joinSp (current ++ [t])).length = (joinSp current).length + 1 + t.length := by
  induction current with
  | nil => exact absurd rfl h
  | cons a rest ih =>
    cases rest with
    | nil =>
      have hsp : (" " : String).length = 1 := rfl
      simp [joinSp, String.length_append, hsp]
    | cons b rest' =>
      have : joinSp ((a :: b :: rest') ++ [t]) = a ++ " " ++ joinSp ((b :: rest') ++ [t]) := by
        simp [joinSp]
      rw [this]
      have h2 : joinSp (a :: b :: rest') = a ++ " " ++ joinSp (b :: rest') := rfl
      rw [h2]
      simp only [String.length_append, ih (by simp)]
      omega

theorem joinSp_append_sepLen (l current : List String) (h : current ≠ []) :
    (joinSp (current ++ l)).length = (joinSp current).length + sepLen l := by
  induction l generalizing current with
  | nil => simp [sepLen]
  | cons t rest ih =>
    have : current ++ t :: rest = (current ++ [t]) ++ rest := by simp
    rw [this, ih (current ++ [t]) (by simp [h]), joinSp_snoc_length current t h]
    simp [sepLen]
    omega

theorem findBoundary_sepLen_le {limit : ℕ} {l : List String} {tot k : ℕ}
    (h : findBoundary limit l tot = some k) : tot + sepLen (l.take k) ≤ limit := by
  induction l generalizing tot k with
  | nil => simp [findBoundary] at h
  | cons t rest ih =>
    simp only [findBoundary] at h
    split at h
    · simp at h
    · split at h
      · simp at h
        subst h
        simp [sepLen]
        omega
      · obtain ⟨k', hk', rfl⟩ := Option.map_eq_some'.mp h
        have := ih hk'
        simp [sepLen] at this ⊢
        omega

theorem chunkTokensGo_text_bound (maxChars tolerance : ℕ)
    (toks current : List String) (length : ℕ) :
    length = (joinSp current).length →
    ((joinSp current).length ≤ maxChars ∨ current.length ≤ 1) →
    ∀ c ∈ chunkTokensGo maxChars tolerance toks current length,
      2 ≤ c.count → c.text.length ≤ maxChars + tolerance := by
  induction toks, current, length using chunkTokensGo.induct maxChars tolerance with
  | case1 x =>
    intro _ _ c hc
    simp [chunkTokensGo] at hc
  | case2 current x hc =>
    intro hlen hinv c hmem h2
    simp [chunkTokensGo, hc] at hmem
    subst hmem
    simp only at h2 ⊢
    rcases hinv with hinv | hinv
    · omega
    · omega
  | case3 t rest current length addLength hcond k hb ih =>
    intro hlen hinv c hmem h2
    rw [chunkTokensGo, if_pos (by simpa using hcond)] at hmem
    rw [hb] at hmem
    rcases List.mem_cons.mp hmem with rfl | hmem
    · simp only
      rw [joinSp_append_sepLen _ _ hcond.2]
      have hsep := findBoundary_sepLen_le hb
      omega
    · exact ih rfl (Or.inl (by simp [joinSp])) c hmem h2
  | case4 t rest current length addLength hcond hb ih =>
    intro hlen hinv c hmem h2
    rw [chunkTokensGo, if_pos (by simpa using hcond)] at hmem
    rw [hb] at hmem
    rcases List.mem_cons.mp hmem with rfl | hmem
    · simp only at h2 ⊢
      rcases hinv with hinv | hinv
      · omega
      · omega
    · exact ih rfl (Or.inr (by simp)) c hmem h2
  | case5 t rest current length addLength hcond ih =>
    intro hlen hinv c hmem h2
    rw [chunkTokensGo, if_neg (by simpa using hcond)] at hmem
    have hadd : length + ((if current = [] then 0 else 1) + t.length)
        = (joinSp (current ++ [t])).length := by
      by_cases hc : current = []
      · subst hc
        have hj : joinSp ([] ++ [t]) = t := rfl
        have hz : joinSp ([] : List String) = "" := rfl
        rw [hj]
        rw [hz] at hlen
        simp [hlen]
      · rw [joinSp_snoc_length current t hc, ← hlen, if_neg hc]
        omega
    have hcond' : length + ((if current = [] then 0 else 1) + t.length) ≤ maxChars
        ∨ current = [] := by
      rcases not_and_or.mp hcond with h | h
      · exact Or.inl (Nat.le_of_not_lt h)
      · exact Or.inr (not_not.mp h)
    rcases hcond' with hle | hc
    · refine ih hadd (Or.inl ?_) c hmem h2
      rw [← hadd]
      exact hle
    · subst hc
      exact ih hadd (Or.inr (by simp)) c hmem h2

/-- C6 (amended): every chunk returned by `chunkTokens` that contains two
or more tokens has text length at most `maxChars + round(maxChars * 0.5)`,
i.e. `maxChars + (maxChars + 1) / 2`; only a single-token chunk may exceed
this bound.  (The claim's `maxChars * 1.5` bound fails for odd `maxChars`,
where the rounded tolerance is half a character larger.) -/
theorem chunkTokens_multi_token_text_bound (tokens : List String)
    (maxChars : ℕ) (c : Chunk) (hmem : c ∈ chunkTokens tokens maxChars)
    (h2 : 2 ≤ c.count) : c.text.length ≤ maxChars + (maxChars + 1) / 2 :=
  chunkTokensGo_text_bound maxChars ((maxChars + 1) / 2) tokens [] 0
    rfl (Or.inl (by simp [joinSp])) c hmem h2

theorem chunkTokens_odd_example :
    chunkTokens ["abcd", "d.)"] 5 = [⟨"abcd d.)", 2⟩] := by
  have e1 : chunkTokensGo 5 ((5 + 1) / 2) [] [] 0 = [] := by
    rw [chunkTokensGo]
    rfl
  rw [chunkTokens, chunkTokensGo]
  rw [if_neg (by decide)]
  show chunkTokensGo 5 ((5 + 1) / 2) ["d.)"] ["abcd"] 4 = [⟨"abcd d.)", 2⟩]
  rw [chunkTokensGo]
  rw [if_pos (by decide)]
  have hb : findBoundary (5 + (5 + 1) / 2) ["d.)"] 4 = some 1 := by decide
  split
  next k' heq =>
    rw [hb] at heq
    obtain rfl := Option.some.inj heq
    show (⟨joinSp (["abcd"] ++ List.take 1 ["d.)"]), ["abcd"].length + 1⟩ : Chunk)
        :: chunkTokensGo 5 ((5 + 1) / 2) [] [] 0 = [⟨"abcd d.)", 2⟩]
    rw [e1]
    decide
  next heq =>
    rw [hb] at heq
    exact Option.noConfusion heq

/-- C6 (counterexample): with `maxChars = 5`, the input `["abcd", "d.)"]`
(the second token ends in `.` followed by the closer `)`, so the source
regex accepts it) is emitted as the single two-token chunk `"abcd d.)"`
of text length 8, and `8 > 5 * 1.5 = 7.5` (stated over ℕ as
`3 * 5 < 2 * 8`), refuting the claimed `maxChars * 1.5` bound for chunks
of two or more tokens. -/
theorem chunkTokens_tolerance_counterexample :
    chunkTokens ["abcd", "d.)"] 5 = [⟨"abcd d.)", 2⟩] ∧
    2 ≤ (Chunk.mk "abcd d.)" 2).count ∧
    3 * 5 < 2 * (Chunk.mk "abcd d.)" 2).text.length :=
  ⟨chunkTokens_odd_example, by decide, by decide⟩

/-- C6 witness: the amended bound applied at a concrete input: the
two-token chunk `"abcd d.)"` produced at `maxChars = 5` has text length
`8 ≤ 5 + 3`. -/
theorem chunkTokens_multi_token_text_bound_witness :
    (Chunk.mk "abcd d.)" 2) ∈ chunkTokens ["abcd", "d.)"] 5 ∧
    (Chunk.mk "abcd d.)" 2).text.length ≤ 5 + (5 + 1) / 2 := by
  have hmem : (Chunk.mk "abcd d.)" 2) ∈ chunkTokens ["abcd", "d.)"] 5 := by
    rw [chunkTokens_odd_example]
    exact List.mem_singleton.mpr rfl
  exact ⟨hmem,
    chunkTokens_multi_token_text_bound ["abcd", "d.)"] 5 _ hmem (by decide)⟩

/-! ## Timing entries and the playback word lookup -/

/-- One row of the per-word timing table: `{ wordIndex, start, end }` in
the source (`end` is a Lean keyword, so the field is named `endTime`). -/
structure TimingEntry where
  wordIndex : ℕ
  start : ℚ
  endTime : ℚ
deriving Repr, DecidableEq

/-- Placeholder used for out-of-range list reads; every proof only reads
in range. -/
def defaultEntry : TimingEntry := ⟨0, 0, 0⟩

/-- The `while (lo <= hi)` binary-search loop of `findWordIndexByTime`,
with the fall-through `Math.max(0, Math.min(entries.length - 1, lo))`
folded into the exit branch.  The source computes the midpoint with
`(lo + hi) >>> 1`; for tables below 2^31 entries (every real table — a
JavaScript array cannot reach that size with one entry per word of a text
chunk) this is `(lo + hi) / 2`, which is how it is modelled. -/
def fwLoop (entries : List TimingEntry) (time : ℚ) (lo hi : ℤ) : ℤ :=
  if h : lo ≤ hi then
    let mid := (lo + hi) / 2
    let entry := entries.getD mid.toNat defaultEntry
    if entry.start ≤ time ∧ time ≤ entry.endTime then mid
    else if time < entry.start then fwLoop entries time lo (mid - 1)
    else fwLoop entries time (mid + 1) hi
  else max 0 (min ((entries.length : ℤ) - 1) lo)
termination_by (hi + 1 - lo).toNat
decreasing_by
  · omega
  · omega

/-- `findWordIndexByTime(entries, time)` from the source. -/
def findWordIndexByTime (entries : List TimingEntry) (time : ℚ) : ℕ :=
  if entries.length = 0 then 0
  else if time ≤ (entries.getD 0 defaultEntry).start then 0
  else if (entries.getD (entries.length - 1) defaultEntry).endTime ≤ time then
    entries.length - 1
  else (fwLoop entries time 0 ((entries.length : ℤ) - 1)).toNat

theorem fwLoop_containing (entries : List TimingEntry) (time : ℚ)
    (hgap : ∀ i : ℕ, i + 1 < entries.length →
      (entries.getD (i + 1) defaultEntry).start
        = (entries.getD i defaultEntry).endTime) :
    ∀ lo hi : ℤ, 0 ≤ lo → lo ≤ hi → hi < (entries.length : ℤ) →
      (entries.getD lo.toNat defaultEntry).start < time →
      time < (entries.getD hi.toNat defaultEntry).endTime →
      lo ≤ fwLoop entries time lo hi ∧
      fwLoop entries time lo hi ≤ hi ∧
      (entries.getD (fwLoop entries time lo hi).toNat defaultEntry).start ≤ time ∧
      time ≤ (entries.getD (fwLoop entries time lo hi).toNat defaultEntry).endTime := by
  intro lo hi
  induction lo, hi using fwLoop.induct entries time with
  | case1 lo hi h mid entry hfound =>
    intro h0 hle hlen hs he
    rw [fwLoop, dif_pos h, if_pos hfound]
    exact ⟨by omega, by omega, hfound.1, hfound.2⟩
  | case2 lo hi h mid entry hfound hlt ih =>
    intro h0 hle hlen hs he
    rw [fwLoop, dif_pos h, if_neg hfound, if_pos hlt]
    have hmid : lo ≤ mid ∧ mid ≤ hi := by omega
    have hne : lo ≠ mid := by
      intro hcon
      have hlt' : time < (entries.getD mid.toNat defaultEntry).start := hlt
      rw [← hcon] at hlt'
      exact absurd hlt' (not_lt.mpr (le_of_lt hs))
    have hlo_lt : lo < mid := lt_of_le_of_ne hmid.1 hne
    have hprev : time < (entries.getD (mid - 1).toNat defaultEntry).endTime := by
      have hidx : (mid - 1).toNat + 1 < entries.length := by omega
      have hg := hgap (mid - 1).toNat hidx
      have hconv : (mid - 1).toNat + 1 = mid.toNat := by omega
      rw [hconv] at hg
      have hlt' : time < (entries.getD mid.toNat defaultEntry).start := hlt
      rw [hg] at hlt'
      exact hlt'
    have hres := ih (by omega) (by omega) (by omega) hs hprev
    unfold mid at hres
    exact ⟨by omega, by omega, hres.2.2.1, hres.2.2.2⟩
  | case3 lo hi h mid entry hfound hlt ih =>
    intro h0 hle hlen hs he
    rw [fwLoop, dif_pos h, if_neg hfound, if_neg hlt]
    have hmid : lo ≤ mid ∧ mid ≤ hi := by omega
    have hsle : entry.start ≤ time := not_lt.mp hlt
    have hend : entry.endTime < time := by
      by_contra hcon
      exact hfound ⟨hsle, not_lt.mp hcon⟩
    have hne : mid ≠ hi := by
      intro hcon
      have hend' : (entries.getD mid.toNat defaultEntry).endTime < time := hend
      rw [hcon] at hend'
      exact absurd he (not_lt.mpr (le_of_lt hend'))
    have hmid_lt : mid < hi := lt_of_le_of_ne hmid.2 hne
    have hnext : (entries.getD (mid + 1).toNat defaultEntry).start < time := by
      have hidx : mid.toNat + 1 < entries.length := by omega
      have hg := hgap mid.toNat hidx
      have hconv : mid.toNat + 1 = (mid + 1).toNat := by omega
      rw [hconv] at hg
      rw [hg]
      exact hend
    have hres := ih (by omega) (by omega) hlen hnext he
    unfold mid at hres
    exact ⟨by omega, by omega, hres.2.2.1, hres.2.2.2⟩
  | case4 lo hi h =>
    intro h0 hle
    exact absurd hle h

/-- C3 (amended): for a non-empty timing table with proper intervals
(`start ≤ end`) that cover gaplessly (`entries[i+1].start =
entries[i].end`), `findWordIndexByTime` returns 0 when `t` is below the
first start, `N-1` when `t` is above the last end, and for `t` within
`[t0, tN]` an index whose interval contains `t`.  (The claim's "the
unique index" fails when `t` is a shared boundary of two adjacent
intervals, where both contain `t`; the function returns one of them.) -/
theorem findWordIndexByTime_spec (entries : List TimingEntry) (time : ℚ)
    (hne : entries ≠ [])
    (hgap : ∀ i : ℕ, i + 1 < entries.length →
      (entries.getD (i + 1) defaultEntry).start
        = (entries.getD i defaultEntry).endTime)
    (hord : ∀ i : ℕ, i < entries.length →
      (entries.getD i defaultEntry).start
        ≤ (entries.getD i defaultEntry).endTime) :
    (time < (entries.getD 0 defaultEntry).start →
      findWordIndexByTime entries time = 0) ∧
    ((entries.getD (entries.length - 1) defaultEntry).endTime < time →
      findWordIndexByTime entries time = entries.length - 1) ∧
    ((entries.getD 0 defaultEntry).start ≤ time →
      time ≤ (entries.getD (entries.length - 1) defaultEntry).endTime →
      findWordIndexByTime entries time < entries.length ∧
      (entries.getD (findWordIndexByTime entries time) defaultEntry).start
        ≤ time ∧
      time ≤ (entries.getD (findWordIndexByTime entries time)
        defaultEntry).endTime) := by
  have hlen : entries.length ≠ 0 := by
    simpa [List.length_eq_zero] using hne
  have hchain : ∀ j : ℕ, j < entries.length →
      (entries.getD 0 defaultEntry).start
        ≤ (entries.getD j defaultEntry).endTime := by
    intro j
    induction j with
    | zero => exact fun hj => hord 0 hj
    | succ j ihj =>
      intro hj
      have h1 := ihj (by omega)
      have h2 := hgap j (by omega)
      have h3 := hord (j + 1) hj
      rw [h2] at h3
      exact le_trans h1 h3
  refine ⟨?_, ?_, ?_⟩
  · intro hlt
    rw [findWordIndexByTime, if_neg hlen, if_pos (le_of_lt hlt)]
  · intro hgt
    have hns : ¬ time ≤ (entries.getD 0 defaultEntry).start := by
      have := hchain (entries.length - 1) (by omega)
      intro hcon
      exact absurd (lt_of_lt_of_le hgt hcon) (not_lt.mpr this)
    rw [findWordIndexByTime, if_neg hlen, if_neg hns, if_pos (le_of_lt hgt)]
  · intro hlow hhigh
    by_cases hc1 : time ≤ (entries.getD 0 defaultEntry).start
    · have heq : time = (entries.getD 0 defaultEntry).start :=
        le_antisymm hc1 hlow
      rw [findWordIndexByTime, if_neg hlen, if_pos hc1]
      refine ⟨by omega, le_of_eq heq.symm, ?_⟩
      rw [heq]
      exact hord 0 (by omega)
    · by_cases hc2 : (entries.getD (entries.length - 1) defaultEntry).endTime
          ≤ time
      · have heq : time
            = (entries.getD (entries.length - 1) defaultEntry).endTime :=
          le_antisymm hhigh hc2
        rw [findWordIndexByTime, if_neg hlen, if_neg hc1, if_pos hc2]
        refine ⟨by omega, ?_, le_of_eq heq⟩
        rw [heq]
        exact hord (entries.length - 1) (by omega)
      · rw [findWordIndexByTime, if_neg hlen, if_neg hc1, if_neg hc2]
        have hcast : ((entries.length : ℤ) - 1).toNat = entries.length - 1 := by
          omega
        have hres := fwLoop_containing entries time hgap 0
          ((entries.length : ℤ) - 1) le_rfl (by omega) (by omega)
          (by simpa using not_le.mp hc1)
          (by rw [hcast]; exact not_le.mp hc2)
        obtain ⟨hr1, hr2, hr3, hr4⟩ := hres
        exact ⟨by omega, hr3, hr4⟩

/-- C3 (counterexample): in the gapless two-entry table
`[(0, 0, 1), (1, 1, 2)]` the query time 1 is the shared boundary: it is
contained in both interval 0 and interval 1, so no unique containing
index exists; `findWordIndexByTime` returns 0. -/
theorem findWordIndexByTime_unique_counterexample :
    findWordIndexByTime [⟨0, 0, 1⟩, ⟨1, 1, 2⟩] 1 = 0 ∧
    (([⟨0, 0, 1⟩, ⟨1, 1, 2⟩] : List TimingEntry).getD 0 defaultEntry).start
      ≤ 1 ∧
    (1 : ℚ) ≤ (([⟨0, 0, 1⟩, ⟨1, 1, 2⟩] : List TimingEntry).getD 0
      defaultEntry).endTime ∧
    (([⟨0, 0, 1⟩, ⟨1, 1, 2⟩] : List TimingEntry).getD 1 defaultEntry).start
      ≤ 1 ∧
    (1 : ℚ) ≤ (([⟨0, 0, 1⟩, ⟨1, 1, 2⟩] : List TimingEntry).getD 1
      defaultEntry).endTime ∧
    ¬ (∃! i : ℕ, i < 2 ∧
        (([⟨0, 0, 1⟩, ⟨1, 1, 2⟩] : List TimingEntry).getD i
          defaultEntry).start ≤ 1 ∧
        (1 : ℚ) ≤ (([⟨0, 0, 1⟩, ⟨1, 1, 2⟩] : List TimingEntry).getD i
          defaultEntry).endTime) := by
  refine ⟨?_, by decide, by decide, by decide, by decide, ?_⟩
  · rw [findWordIndexByTime]
    rw [if_neg (by decide), if_neg (by decide), if_neg (by decide)]
    rw [fwLoop]
    decide
  · rintro ⟨i, hi, huniq⟩
    have e0 := huniq 0 ⟨by omega, by decide, by decide⟩
    have e1 := huniq 1 ⟨by omega, by decide, by decide⟩
    omega

/-- C3 witness: the amended lookup theorem applied to the concrete table
`[(0, 0, 1), (1, 1, 2)]` at time 1: the returned index is in range and
its interval contains the query time. -/
theorem findWordIndexByTime_spec_witness :
    findWordIndexByTime [⟨0, 0, 1⟩, ⟨1, 1, 2⟩] 1
      < ([⟨0, 0, 1⟩, ⟨1, 1, 2⟩] : List TimingEntry).length ∧
    (([⟨0, 0, 1⟩, ⟨1, 1, 2⟩] : List TimingEntry).getD
      (findWordIndexByTime [⟨0, 0, 1⟩, ⟨1, 1, 2⟩] 1) defaultEntry).start
      ≤ 1 ∧
    (1 : ℚ) ≤ (([⟨0, 0, 1⟩, ⟨1, 1, 2⟩] : List TimingEntry).getD
      (findWordIndexByTime [⟨0, 0, 1⟩, ⟨1, 1, 2⟩] 1) defaultEntry).endTime :=
  (findWordIndexByTime_spec [⟨0, 0, 1⟩, ⟨1, 1, 2⟩] 1
    (by simp)
    (by
      intro i hi
      have hi0 : i = 0 := by
        simp at hi
        omega
      subst hi0
      decide)
    (by
      intro i hi
      have hi' : i = 0 ∨ i = 1 := by
        simp at hi
        omega
      rcases hi' with rfl | rfl
      · decide
      · decide)).2.2 (by decide) (by decide)

/-! ## Timing normalizer -/

/-- JavaScript truthiness of the optional `duration` argument: absent and
zero are falsy. -/
def durTruthy : Option ℚ → Bool
  | none => false
  | some d => d ≠ 0

/-- `buildFallbackMap(words, duration)`: the uniform table distributing
`duration` evenly across all words. -/
def buildFallbackMap (words : List String) (duration : ℚ) : List TimingEntry :=
  if duration = 0 ∨ words.length = 0 then []
  else
    (List.range words.length).map fun idx =>
      ⟨idx, idx * (duration / words.length), (idx + 1) * (duration / words.length)⟩

/-- `entries[entry.wordIndex] = { ...entry }` with JavaScript array
semantics: assigning past the end extends the array, and the skipped
positions are holes, which every later read of this array treats like
`null` (modelled as `none`). -/
def setEntry (l : List (Option TimingEntry)) (i : ℕ) (v : TimingEntry) :
    List (Option TimingEntry) :=
  if i < l.length then l.set i (some v)
  else l ++ List.replicate (i - l.length) none ++ [some v]

/-- The recording loop of `normalizeTimingMap`: place each sparse entry
at its word index in an array of `words.length` nulls. -/
def insertEntries (n : ℕ) (timingMap : List TimingEntry) :
    List (Option TimingEntry) :=
  timingMap.foldl (fun acc e => setEntry acc e.wordIndex e)
    (List.replicate n none)

/-- The positive durations accumulated by the `avg`/`count` loop of
`normalizeTimingMap` (entries with `end > start`). -/
def posDurations (timingMap : List TimingEntry) : List ℚ :=
  (timingMap.filter fun e => e.start < e.endTime).map fun e => e.endTime - e.start

/-- The average duration of `normalizeTimingMap`: the mean of the positive
sparse durations; with none, `duration / words.length` when a duration is
known, else the fixed default `0.35`. -/
def avgDuration (n : ℕ) (timingMap : List TimingEntry) (duration : Option ℚ) :
    ℚ :=
  if (posDurations timingMap).length = 0 then
    if durTruthy duration then duration.getD 0 / n else 7/20
  else (posDurations timingMap).sum / (posDurations timingMap).length

/-- The backward-fill loop `for (let i = firstKnown - 1; i >= 0; i--)`.
The first argument is one past the index being filled: `backfillDown avg k`
fills indices `k-1, k-2, …, 0`, placing each word's end at the following
word's start (already filled) and its start `avg` earlier, floored at 0. -/
def backfillDown (avg : ℚ) :
    ℕ → List (Option TimingEntry) → List (Option TimingEntry)
  | 0, entries => entries
  | i + 1, entries =>
    let endv := ((entries.getD (i + 1) none).map TimingEntry.start).getD
      (avg * (i + 1))
    backfillDown avg i (entries.set i (some ⟨i, max 0 (endv - avg), endv⟩))

/-- `let next = i + 1; while (next < entries.length && !entries[next])
next += 1;` — the scan for the next known index. -/
def findNextKnown (entries : List (Option TimingEntry)) (k : ℕ) : ℕ :=
  if h : k < entries.length then
    if (entries.getD k none).isSome then k else findNextKnown entries (k + 1)
  else k
termination_by entries.length - k

/-- The interior-gap fill `for (let k = 1; k < gap; k++)` of
`normalizeTimingMap`: linear interpolation with the chosen `step`. -/
def fillInterior (entries : List (Option TimingEntry)) (prev : ℕ)
    (start step : ℚ) (gap : ℕ) : List (Option TimingEntry) :=
  (List.range' 1 (gap - 1)).foldl
    (fun acc k => acc.set (prev + k)
      (some ⟨prev + k, start + step * ((k : ℚ) - 1), start + step * k⟩))
    entries

/-- The trailing-gap fill of `normalizeTimingMap`: step forward from the
last known end in `avg` increments, carrying the moving `start`. -/
def fillTrailing (entries : List (Option TimingEntry)) (prev : ℕ)
    (start avg : ℚ) (gap : ℕ) : List (Option TimingEntry) :=
  ((List.range' 1 (gap - 1)).foldl
    (fun (p : List (Option TimingEntry) × ℚ) k =>
      (p.1.set (prev + k) (some ⟨prev + k, p.2, p.2 + avg⟩), p.2 + avg))
    (entries, start)).1

theorem fillInterior_length (entries : List (Option TimingEntry))
    (prev : ℕ) (start step : ℚ) (gap : ℕ) :
    (fillInterior entries prev start step gap).length = entries.length := by
  rw [fillInterior]
  generalize List.range' 1 (gap - 1) = ks
  induction ks generalizing entries with
  | nil => rfl
  | cons k ks ih => simp [List.foldl_cons, ih]

theorem fillTrailing_aux_length (entries : List (Option TimingEntry))
    (prev : ℕ) (start avg : ℚ) (ks : List ℕ) :
    ((ks.foldl
      (fun (p : List (Option TimingEntry) × ℚ) k =>
        (p.1.set (prev + k) (some ⟨prev + k, p.2, p.2 + avg⟩), p.2 + avg))
      (entries, start)).1).length = entries.length := by
  induction ks generalizing entries start with
  | nil => rfl
  | cons k ks ih => simp [List.foldl_cons, ih]

theorem fillTrailing_length (entries : List (Option TimingEntry))
    (prev : ℕ) (start avg : ℚ) (gap : ℕ) :
    (fillTrailing entries prev start avg gap).length = entries.length :=
  fillTrailing_aux_length entries prev start avg (List.range' 1 (gap - 1))

/-- The forward loop `for (let i = firstKnown + 1; i < entries.length; i++)`
of `normalizeTimingMap`, carrying the `prev` cursor: skip known entries,
interpolate interior gaps, extend trailing gaps.  (In the rationals every
`step` is finite, so the source's `Number.isFinite` guard reduces to the
`step <= 0` test.) -/
def forwardFill (avg : ℚ) (entries : List (Option TimingEntry))
    (i prev : ℕ) : List (Option TimingEntry) :=
  if h : i < entries.length then
    if (entries.getD i none).isSome then forwardFill avg entries (i + 1) i
    else
      let next := findNextKnown entries (i + 1)
      let gap := next - prev
      if next < entries.length then
        let start := ((entries.getD prev none).map TimingEntry.endTime).getD
          (avg * prev)
        let endv := ((entries.getD next none).map TimingEntry.start).getD
          (start + avg * gap)
        let step0 := (endv - start) / gap
        let step := if step0 ≤ 0 then avg else step0
        forwardFill avg (fillInterior entries prev start step gap) (i + 1)
          (min next (entries.length - 1))
      else
        let start := ((entries.getD prev none).map TimingEntry.endTime).getD
          (avg * prev)
        forwardFill avg (fillTrailing entries prev start avg gap) (i + 1)
          (min next (entries.length - 1))
  else entries
termination_by entries.length - i
decreasing_by
  · omega
  · rw [fillInterior_length]
    omega
  · rw [fillTrailing_length]
    omega

/-- The catch-all loop of `normalizeTimingMap`, replacing any remaining
null slot with the uniform entry at `i * avg`, yielding the plain list. -/
def fillRemaining (avg : ℚ) (entries : List (Option TimingEntry)) :
    List TimingEntry :=
  entries.mapIdx fun i e => e.getD ⟨i, i * avg, i * avg + avg⟩

/-- The final monotonicity pass of `normalizeTimingMap`: clamp each start
to at least the previous end, force each duration to at least `minDur`,
and carry `lastEnd` forward. -/
def finalizePass (minDur : ℚ) : ℚ → List TimingEntry → List TimingEntry
  | _, [] => []
  | lastEnd, e :: rest =>
    let s := max e.start lastEnd
    let en := max e.endTime (s + minDur)
    ⟨e.wordIndex, s, en⟩ :: finalizePass minDur en rest

/-- `normalizeTimingMap(words, timingMap, duration)` from the source,
assembled from the loop models above (`0.35 = 7/20`, `0.4 = 2/5`,
`0.04 = 1/25`). -/
def normalizeTimingMap (words : List String) (timingMap : List TimingEntry)
    (duration : Option ℚ) : List TimingEntry :=
  if words.length = 0 then []
  else
    let n := words.length
    let entries := insertEntries n timingMap
    let avg := avgDuration n timingMap duration
    match entries.findIdx? Option.isSome with
    | none =>
      if durTruthy duration then buildFallbackMap words (duration.getD 0)
      else (List.range n).map fun idx => ⟨idx, idx * avg, (idx + 1) * avg⟩
    | some firstKnown =>
      let entries2 := backfillDown avg firstKnown entries
      let entries3 := forwardFill avg entries2 (firstKnown + 1) firstKnown
      let minDur := max (avg * (2/5)) (1/25)
      finalizePass minDur 0 (fillRemaining avg entries3)

theorem finalizePass_length (m L : ℚ) (l : List TimingEntry) :
    (finalizePass m L l).length = l.length := by
  induction l generalizing L with
  | nil => rfl
  | cons e rest ih => simp [finalizePass, ih]

theorem finalizePass_wordIndex (m L : ℚ) (l : List TimingEntry) :
    (finalizePass m L l).map TimingEntry.wordIndex
      = l.map TimingEntry.wordIndex := by
  induction l generalizing L with
  | nil => rfl
  | cons e rest ih => simp [finalizePass, ih]

theorem finalizePass_start_ge (m L : ℚ) (hm : 0 ≤ m) (l : List TimingEntry) :
    ∀ f ∈ finalizePass m L l, L ≤ f.start := by
  induction l generalizing L with
  | nil => simp [finalizePass]
  | cons e rest ih =>
    intro f hf
    rw [finalizePass] at hf
    rcases List.mem_cons.mp hf with rfl | hf
    · exact le_max_right _ _
    · have h1 := ih (max e.endTime (max e.start L + m)) f hf
      have h2 : L ≤ max e.endTime (max e.start L + m) := by
        have : L ≤ max e.start L + m := by
          have := le_max_right e.start L
          linarith
        exact le_trans this (le_max_right _ _)
      exact le_trans h2 h1

theorem finalizePass_dur (m L : ℚ) (l : List TimingEntry) :
    ∀ f ∈ finalizePass m L l, f.start + m ≤ f.endTime := by
  induction l generalizing L with
  | nil => simp [finalizePass]
  | cons e rest ih =>
    intro f hf
    rw [finalizePass] at hf
    rcases List.mem_cons.mp hf with rfl | hf
    · exact le_max_right _ _
    · exact ih _ f hf

theorem finalizePass_chain_gapless (m L : ℚ) (hm : 0 ≤ m)
    (l : List TimingEntry) :
    List.Chain' (fun a b => a.endTime ≤ b.start) (finalizePass m L l) := by
  induction l generalizing L with
  | nil => simp [finalizePass]
  | cons e rest ih =>
    rw [finalizePass]
    refine List.chain'_cons'.mpr ⟨?_, ih _⟩
    intro b hb
    have hmem := List.mem_of_mem_head? hb
    exact finalizePass_start_ge m _ hm rest b hmem

theorem finalizePass_chain_start_lt (m L : ℚ) (hm : 0 < m)
    (l : List TimingEntry) :
    List.Chain' (fun a b => a.start < b.start) (finalizePass m L l) := by
  induction l generalizing L with
  | nil => simp [finalizePass]
  | cons e rest ih =>
    rw [finalizePass]
    refine List.chain'_cons'.mpr ⟨?_, ih _⟩
    intro b hb
    have hmem := List.mem_of_mem_head? hb
    have h1 := finalizePass_start_ge m _ (le_of_lt hm) rest b hmem
    have h2 : max e.start L + m ≤ max e.endTime (max e.start L + m) :=
      le_max_right _ _
    have h3 : e.start ≤ max e.start L := le_max_left _ _
    simp only
    linarith

/-- Invariant of the `entries` array: every stored entry sits at the
position equal to its `wordIndex`. -/
def WIdx (entries : List (Option TimingEntry)) : Prop :=
  ∀ k : ℕ, ∀ e : TimingEntry, entries.getD k none = some e → e.wordIndex = k

theorem setEntry_getD (l : List (Option TimingEntry)) (i : ℕ)
    (v : TimingEntry) (j : ℕ) :
    (setEntry l i v).getD j none
      = if j = i then some v else l.getD j none := by
  rw [setEntry]
  by_cases hi : i < l.length
  · rw [if_pos hi, List.getD_eq_getElem?_getD, List.getElem?_set]
    by_cases hj : j = i
    · subst hj
      simp [hi]
    · rw [if_neg (fun hc => hj hc.symm), if_neg hj, List.getD_eq_getElem?_getD]
  · rw [if_neg hi, List.append_assoc, List.getD_eq_getElem?_getD]
    by_cases hjl : j < l.length
    · rw [List.getElem?_append_left hjl, if_neg (by omega),
        List.getD_eq_getElem?_getD]
    · rw [List.getElem?_append_right (by omega)]
      by_cases hj : j = i
      · subst hj
        rw [List.getElem?_append_right (by simp)]
        simp
      · rw [if_neg hj]
        have hnone : l.getD j none = none := by
          rw [List.getD_eq_getElem?_getD, List.getElem?_eq_none (by omega)]
          rfl
        rw [hnone]
        by_cases hji : j < i
        · rw [List.getElem?_append_left (by simp; omega)]
          simp
        · rw [List.getElem?_append_right (by simp; omega)]
          rw [List.getElem?_eq_none (by simp; omega)]
          rfl

theorem setEntry_length_of_lt (l : List (Option TimingEntry)) (i : ℕ)
    (v : TimingEntry) (hi : i < l.length) :
    (setEntry l i v).length = l.length := by
  rw [setEntry, if_pos hi, List.length_set]

theorem foldl_setEntry_getD (tm : List TimingEntry)
    (acc : List (Option TimingEntry)) (j : ℕ) :
    (tm.foldl (fun a e => setEntry a e.wordIndex e) acc).getD j none
      = match tm.reverse.find? (fun e => e.wordIndex == j) with
        | some e => some e
        | none => acc.getD j none := by
  induction tm generalizing acc with
  | nil => simp
  | cons e rest ih =>
    rw [List.foldl_cons, ih, List.reverse_cons, List.find?_append]
    cases hfind : rest.reverse.find? (fun e => e.wordIndex == j) with
    | some e' => simp [hfind]
    | none =>
      simp only [hfind, Option.none_or]
      rw [setEntry_getD]
      by_cases hj : j = e.wordIndex
      · subst hj
        simp
      · rw [if_neg hj]
        have : (e.wordIndex == j) = false := by
          simp
          omega
        simp [List.find?, this]

theorem insertEntries_getD (n : ℕ) (tm : List TimingEntry) (j : ℕ) :
    (insertEntries n tm).getD j none
      = match tm.reverse.find? (fun e => e.wordIndex == j) with
        | some e => some e
        | none => none := by
  rw [insertEntries, foldl_setEntry_getD]
  cases tm.reverse.find? (fun e => e.wordIndex == j) with
  | some e => rfl
  | none =>
    simp only
    rw [List.getD_eq_getElem?_getD, List.getElem?_replicate]
    split
    · rfl
    · rfl

theorem insertEntries_WIdx (n : ℕ) (tm : List TimingEntry) :
    WIdx (insertEntries n tm) := by
  intro k e hk
  rw [insertEntries_getD] at hk
  cases hfind : tm.reverse.find? (fun e => e.wordIndex == k) with
  | some e' =>
    rw [hfind] at hk
    simp only [Option.some.injEq] at hk
    subst hk
    have := List.find?_some hfind
    simpa using this
  | none =>
    rw [hfind] at hk
    exact Option.noConfusion hk

theorem insertEntries_length (n : ℕ) (tm : List TimingEntry)
    (h : ∀ e ∈ tm, e.wordIndex < n) : (insertEntries n tm).length = n := by
  rw [insertEntries]
  have haux : ∀ (l : List TimingEntry) (acc : List (Option TimingEntry)),
      acc.length = n → (∀ e ∈ l, e.wordIndex < n) →
      (l.foldl (fun a e => setEntry a e.wordIndex e) acc).length = n := by
    intro l
    induction l with
    | nil => intro acc hacc _; exact hacc
    | cons e rest ih =>
      intro acc hacc hl
      rw [List.foldl_cons]
      refine ih _ ?_ (fun x hx => hl x (List.mem_cons_of_mem _ hx))
      rw [setEntry_length_of_lt _ _ _ (by rw [hacc]; exact hl e (List.mem_cons_self e rest))]
      exact hacc
  exact haux tm (List.replicate n none) (by simp) h

theorem WIdx_set (l : List (Option TimingEntry)) (i : ℕ) (v : TimingEntry)
    (hw : WIdx l) (hv : v.wordIndex = i) : WIdx (l.set i (some v)) := by
  intro k e hk
  rw [List.getD_eq_getElem?_getD, List.getElem?_set] at hk
  by_cases hik : i = k
  · subst hik
    rw [if_pos rfl] at hk
    split at hk
    · simp at hk
      rw [← hk]
      exact hv
    · exact Option.noConfusion hk
  · rw [if_neg hik] at hk
    exact hw k e (by rw [List.getD_eq_getElem?_getD]; exact hk)

theorem backfillDown_length (avg : ℚ) (i : ℕ)
    (entries : List (Option TimingEntry)) :
    (backfillDown avg i entries).length = entries.length := by
  induction i generalizing entries with
  | zero => rfl
  | succ i ih => rw [backfillDown, ih, List.length_set]

theorem backfillDown_WIdx (avg : ℚ) (i : ℕ)
    (entries : List (Option TimingEntry)) (hw : WIdx entries) :
    WIdx (backfillDown avg i entries) := by
  induction i generalizing entries with
  | zero => exact hw
  | succ i ih =>
    rw [backfillDown]
    exact ih _ (WIdx_set _ _ _ hw rfl)

theorem fillInterior_WIdx (entries : List (Option TimingEntry)) (prev : ℕ)
    (start step : ℚ) (gap : ℕ) (hw : WIdx entries) :
    WIdx (fillInterior entries prev start step gap) := by
  rw [fillInterior]
  generalize List.range' 1 (gap - 1) = ks
  induction ks generalizing entries with
  | nil => exact hw
  | cons k ks ih =>
    rw [List.foldl_cons]
    exact ih _ (WIdx_set _ _ _ hw rfl)

theorem fillTrailing_WIdx (entries : List (Option TimingEntry)) (prev : ℕ)
    (start avg : ℚ) (gap : ℕ) (hw : WIdx entries) :
    WIdx (fillTrailing entries prev start avg gap) := by
  rw [fillTrailing]
  generalize List.range' 1 (gap - 1) = ks
  induction ks generalizing entries start with
  | nil => exact hw
  | cons k ks ih =>
    rw [List.foldl_cons]
    exact ih _ _ (WIdx_set _ _ _ hw rfl)

theorem forwardFill_length (avg : ℚ) (entries : List (Option TimingEntry))
    (i prev : ℕ) :
    (forwardFill avg entries i prev).length = entries.length := by
  induction entries, i, prev using forwardFill.induct avg with
  | case1 entries i prev h hsome ih =>
    rw [forwardFill, dif_pos h, if_pos hsome]
    exact ih
  | case2 entries i prev h hsome next gap hn start endv step0 step ih =>
    rw [forwardFill, dif_pos h, if_neg hsome, if_pos hn]
    exact ih.trans (fillInterior_length _ _ _ _ _)
  | case3 entries i prev h hsome next gap hn start ih =>
    rw [forwardFill, dif_pos h, if_neg hsome, if_neg hn]
    exact ih.trans (fillTrailing_length _ _ _ _ _)
  | case4 entries i prev h =>
    rw [forwardFill, dif_neg h]

theorem forwardFill_WIdx (avg : ℚ) (entries : List (Option TimingEntry))
    (i prev : ℕ) (hw : WIdx entries) :
    WIdx (forwardFill avg entries i prev) := by
  induction entries, i, prev using forwardFill.induct avg with
  | case1 entries i prev h hsome ih =>
    rw [forwardFill, dif_pos h, if_pos hsome]
    exact ih hw
  | case2 entries i prev h hsome next gap hn start endv step0 step ih =>
    rw [forwardFill, dif_pos h, if_neg hsome, if_pos hn]
    exact ih (fillInterior_WIdx _ _ _ _ _ hw)
  | case3 entries i prev h hsome next gap hn start ih =>
    rw [forwardFill, dif_pos h, if_neg hsome, if_neg hn]
    exact ih (fillTrailing_WIdx _ _ _ _ _ hw)
  | case4 entries i prev h =>
    rw [forwardFill, dif_neg h]
    exact hw

theorem fillRemaining_length (avg : ℚ)
    (entries : List (Option TimingEntry)) :
    (fillRemaining avg entries).length = entries.length := by
  unfold fillRemaining
  rw [List.length_mapIdx]

theorem fillRemaining_wordIndex (avg : ℚ)
    (entries : List (Option TimingEntry)) (hw : WIdx entries) (k : ℕ)
    (hk : k < (fillRemaining avg entries).length) :
    ((fillRemaining avg entries).get ⟨k, hk⟩).wordIndex = k := by
  unfold fillRemaining at hk ⊢
  rw [List.length_mapIdx] at hk
  rw [List.get_eq_getElem, List.getElem_mapIdx]
  cases hcase : entries[k] with
  | none => rfl
  | some e =>
    simp only [hcase, Option.getD_some]
    refine hw k e ?_
    rw [List.getD_eq_getElem?_getD,
      List.getElem?_eq_getElem (by simpa using hk), hcase]
    rfl

theorem uniformTable_spec (n : ℕ) (per : ℚ) (hper : 0 < per) :
    ((List.range n).map fun idx =>
      (⟨idx, idx * per, (idx + 1) * per⟩ : TimingEntry)).length = n ∧
    (∀ k (hk : k < ((List.range n).map fun idx =>
        (⟨idx, idx * per, (idx + 1) * per⟩ : TimingEntry)).length),
      (((List.range n).map fun idx =>
        (⟨idx, idx * per, (idx + 1) * per⟩ : TimingEntry)).get
          ⟨k, hk⟩).wordIndex = k) ∧
    List.Pairwise (fun a b => a.start < b.start)
      ((List.range n).map fun idx =>
        (⟨idx, idx * per, (idx + 1) * per⟩ : TimingEntry)) ∧
    (∀ e ∈ (List.range n).map fun idx =>
      (⟨idx, idx * per, (idx + 1) * per⟩ : TimingEntry),
      e.start < e.endTime) ∧
    (∀ e ∈ (List.range n).map fun idx =>
      (⟨idx, idx * per, (idx + 1) * per⟩ : TimingEntry),
      0 ≤ e.start) ∧
    List.Chain' (fun a b => a.endTime ≤ b.start)
      ((List.range n).map fun idx =>
        (⟨idx, idx * per, (idx + 1) * per⟩ : TimingEntry)) := by
  refine ⟨by simp, ?_, ?_, ?_, ?_, ?_⟩
  · intro k hk
    simp at hk
    simp [List.get_eq_getElem, List.getElem_map, hk]
  · refine List.Pairwise.map _ ?_ (List.pairwise_lt_range n)
    intro a b hab
    simp only
    have : (a : ℚ) < b := by exact_mod_cast hab
    exact mul_lt_mul_of_pos_right this hper
  · intro e he
    simp only [List.mem_map, List.mem_range] at he
    obtain ⟨idx, -, rfl⟩ := he
    simp only
    have h1 : (idx : ℚ) < idx + 1 := by linarith
    exact mul_lt_mul_of_pos_right h1 hper
  · intro e he
    simp only [List.mem_map, List.mem_range] at he
    obtain ⟨idx, -, rfl⟩ := he
    simp only
    positivity
  · rw [List.chain'_map]
    rw [List.chain'_iff_get]
    intro i hi
    rw [List.get_range, List.get_range]
    simp

theorem insertEntries_all_none_of_findIdx?_none (words : List String)
    (timingMap : List TimingEntry)
    (hidx : ∀ e ∈ timingMap, e.wordIndex < words.length)
    (hfk : (insertEntries words.length timingMap).findIdx? Option.isSome
      = none) :
    timingMap = [] := by
  by_contra hne
  obtain ⟨e, he⟩ := List.exists_mem_of_ne_nil timingMap hne
  have hlen := insertEntries_length words.length timingMap hidx
  have h1 : (insertEntries words.length timingMap).getD e.wordIndex none
      ≠ none := by
    rw [insertEntries_getD]
    cases hfind : timingMap.reverse.find?
        (fun x => x.wordIndex == e.wordIndex) with
    | some x => simp
    | none =>
      have hall := List.find?_eq_none.mp hfind e (List.mem_reverse.mpr he)
      simp at hall
  have h2 := List.findIdx?_eq_none_iff.mp hfk
  have hin : e.wordIndex < (insertEntries words.length timingMap).length := by
    rw [hlen]
    exact hidx e he
  have hmem' : (insertEntries words.length timingMap).getD e.wordIndex none
      = (insertEntries words.length timingMap)[e.wordIndex] := by
    rw [List.getD_eq_getElem?_getD, List.getElem?_eq_getElem hin]
    rfl
  have hns := h2 ((insertEntries words.length timingMap)[e.wordIndex])
    (List.getElem_mem hin)
  cases hcase : (insertEntries words.length timingMap)[e.wordIndex] with
  | none => exact h1 (hmem'.trans hcase)
  | some x =>
    rw [hcase] at hns
    simp at hns

theorem normalizeTimingMap_eq_of_findIdx?_none (words : List String)
    (timingMap : List TimingEntry) (duration : Option ℚ)
    (hn : words.length ≠ 0)
    (hfk : (insertEntries words.length timingMap).findIdx? Option.isSome
      = none) :
    normalizeTimingMap words timingMap duration
      = if durTruthy duration then buildFallbackMap words (duration.getD 0)
        else (List.range words.length).map fun idx =>
          ⟨idx, idx * avgDuration words.length timingMap duration,
            (idx + 1) * avgDuration words.length timingMap duration⟩ := by
  unfold normalizeTimingMap
  rw [if_neg hn]
  simp only [hfk]

theorem normalizeTimingMap_eq_of_findIdx?_some (words : List String)
    (timingMap : List TimingEntry) (duration : Option ℚ) (firstKnown : ℕ)
    (hn : words.length ≠ 0)
    (hfk : (insertEntries words.length timingMap).findIdx? Option.isSome
      = some firstKnown) :
    normalizeTimingMap words timingMap duration
      = finalizePass
          (max (avgDuration words.length timingMap duration * (2/5)) (1/25)) 0
          (fillRemaining (avgDuration words.length timingMap duration)
            (forwardFill (avgDuration words.length timingMap duration)
              (backfillDown (avgDuration words.length timingMap duration)
                firstKnown (insertEntries words.length timingMap))
              (firstKnown + 1) firstKnown)) := by
  unfold normalizeTimingMap
  rw [if_neg hn]
  simp only [hfk]

theorem normalizeTimingMap_props (words : List String)
    (timingMap : List TimingEntry) (duration : Option ℚ)
    (hw : words ≠ [])
    (hidx : ∀ e ∈ timingMap, e.wordIndex < words.length)
    (hdur : ∀ d ∈ duration, 0 < d) :
    (normalizeTimingMap words timingMap duration).length = words.length ∧
    (∀ k (hk : k < (normalizeTimingMap words timingMap duration).length),
      ((normalizeTimingMap words timingMap duration).get ⟨k, hk⟩).wordIndex
        = k) ∧
    List.Pairwise (fun a b => a.start < b.start)
      (normalizeTimingMap words timingMap duration) ∧
    (∀ e ∈ normalizeTimingMap words timingMap duration,
      e.start < e.endTime) ∧
    (∀ e ∈ normalizeTimingMap words timingMap duration, 0 ≤ e.start) ∧
    List.Chain' (fun a b => a.endTime ≤ b.start)
      (normalizeTimingMap words timingMap duration) := by
  have hn : words.length ≠ 0 := by simpa [List.length_eq_zero] using hw
  cases hfk : (insertEntries words.length timingMap).findIdx? Option.isSome with
  | none =>
    rw [normalizeTimingMap_eq_of_findIdx?_none words timingMap duration hn hfk]
    have htm := insertEntries_all_none_of_findIdx?_none words timingMap hidx hfk
    subst htm
    cases duration with
    | none =>
      have hdt : durTruthy none = false := rfl
      rw [hdt]
      simp only [Bool.false_eq_true, if_false]
      have havg : avgDuration words.length [] none = 7/20 := by
        rw [avgDuration]
        simp [posDurations, durTruthy]
      rw [havg]
      exact uniformTable_spec words.length (7/20) (by norm_num)
    | some d =>
      have hd : 0 < d := hdur d rfl
      have hdt : durTruthy (some d) = true := by
        simp [durTruthy]
        exact ne_of_gt hd
      rw [hdt]
      simp only [if_true]
      rw [buildFallbackMap,
        if_neg (by push_neg; exact ⟨ne_of_gt hd, hn⟩)]
      have hper : 0 < d / (words.length : ℚ) := by
        apply div_pos hd
        exact_mod_cast Nat.pos_of_ne_zero hn
      simpa [Option.getD_some] using
        uniformTable_spec words.length (d / (words.length : ℚ)) hper
  | some firstKnown =>
    rw [normalizeTimingMap_eq_of_findIdx?_some words timingMap duration
      firstKnown hn hfk]
    have hminDur : (0:ℚ)
        < max (avgDuration words.length timingMap duration * (2/5)) (1/25) :=
      lt_of_lt_of_le (by norm_num) (le_max_right _ _)
    set avg := avgDuration words.length timingMap duration with havg
    set minDur := max (avg * (2/5)) (1/25) with hmd
    set filled := fillRemaining avg
      (forwardFill avg (backfillDown avg firstKnown
        (insertEntries words.length timingMap)) (firstKnown + 1) firstKnown)
      with hfilled
    have hlenf : filled.length = words.length := by
      rw [hfilled, fillRemaining_length, forwardFill_length,
        backfillDown_length, insertEntries_length words.length timingMap hidx]
    have hwidx : ∀ k (hk : k < filled.length),
        (filled.get ⟨k, hk⟩).wordIndex = k := fun k hk =>
      fillRemaining_wordIndex _ _
        (forwardFill_WIdx _ _ _ _
          (backfillDown_WIdx _ _ _ (insertEntries_WIdx _ _))) k hk
    refine ⟨?_, ?_, ?_, ?_, ?_, ?_⟩
    · rw [finalizePass_length, hlenf]
    · intro k hk
      have hk2 : k < (finalizePass minDur 0 filled).length := hk
      have hk3 : k < filled.length := by
        rw [← finalizePass_length minDur 0 filled]
        exact hk2
      have hmap := finalizePass_wordIndex minDur 0 filled
      have h1 : ((finalizePass minDur 0 filled).get ⟨k, hk2⟩).wordIndex
          = ((finalizePass minDur 0 filled).map TimingEntry.wordIndex).getD
            k 0 := by
        rw [List.getD_eq_getElem?_getD,
          List.getElem?_eq_getElem (by simpa using hk2)]
        simp
      rw [h1, hmap, List.getD_eq_getElem?_getD,
        List.getElem?_eq_getElem (by simpa using hk3)]
      simp only [List.getElem_map, Option.getD_some]
      rw [← List.get_eq_getElem filled ⟨k, hk3⟩]
      exact hwidx k hk3
    · haveI : IsTrans TimingEntry (fun a b => a.start < b.start) :=
        ⟨fun _ _ _ => lt_trans⟩
      exact List.chain'_iff_pairwise.mp
        (finalizePass_chain_start_lt minDur 0 hminDur filled)
    · intro e he
      have := finalizePass_dur minDur 0 filled e he
      linarith
    · intro e he
      exact finalizePass_start_ge minDur 0 (le_of_lt hminDur) filled e he
    · exact finalizePass_chain_gapless minDur 0 (le_of_lt hminDur) filled

/-- C1: for every non-empty word list, every sparse timing list whose
`wordIndex` values lie inside the word list, and any optional positive
audio duration, `normalizeTimingMap` returns exactly one entry per word
index (the entry at position `k` has `wordIndex = k`), with strictly
increasing `start` values and `end ≥ start` for every entry. -/
theorem normalizeTimingMap_total_monotone (words : List String)
    (timingMap : List TimingEntry) (duration : Option ℚ)
    (hw : words ≠ [])
    (hidx : ∀ e ∈ timingMap, e.wordIndex < words.length)
    (hdur : ∀ d ∈ duration, 0 < d) :
    (normalizeTimingMap words timingMap duration).length = words.length ∧
    (∀ k (hk : k < (normalizeTimingMap words timingMap duration).length),
      ((normalizeTimingMap words timingMap duration).get ⟨k, hk⟩).wordIndex
        = k) ∧
    List.Pairwise (fun a b => a.start < b.start)
      (normalizeTimingMap words timingMap duration) ∧
    ∀ e ∈ normalizeTimingMap words timingMap duration,
      e.start ≤ e.endTime := by
  obtain ⟨h1, h2, h3, h4, -, -⟩ :=
    normalizeTimingMap_props words timingMap duration hw hidx hdur
  exact ⟨h1, h2, h3, fun e he => le_of_lt (h4 e he)⟩

/-- C4: with an empty sparse timing list and a known positive audio
duration, `normalizeTimingMap` falls back to the uniform table dividing
`[0, audioDuration]` evenly across all words. -/
theorem normalizeTimingMap_empty_transcript_uniform (words : List String)
    (d : ℚ) (hw : words ≠ []) (hd : 0 < d) :
    normalizeTimingMap words [] (some d)
      = (List.range words.length).map fun k =>
          (⟨k, k * (d / words.length), (k + 1) * (d / words.length)⟩ :
            TimingEntry) := by
  have hn : words.length ≠ 0 := by simpa [List.length_eq_zero] using hw
  have hfk : (insertEntries words.length []).findIdx? Option.isSome
      = none := by
    rw [insertEntries]
    simp [List.findIdx?_replicate]
  rw [normalizeTimingMap_eq_of_findIdx?_none words [] (some d) hn hfk]
  have hdt : durTruthy (some d) = true := by
    simp [durTruthy]
    exact ne_of_gt hd
  rw [hdt]
  simp only [if_true]
  rw [buildFallbackMap, if_neg (by push_neg; exact ⟨ne_of_gt hd, hn⟩)]
  simp

/-- C1 witness: the totality/monotonicity theorem applied to a one-word
list with no sparse entries and no duration. -/
theorem normalizeTimingMap_total_monotone_witness :
    (normalizeTimingMap ["a"] [] none).length = (["a"] : List String).length ∧
    (∀ k (hk : k < (normalizeTimingMap ["a"] [] none).length),
      ((normalizeTimingMap ["a"] [] none).get ⟨k, hk⟩).wordIndex = k) ∧
    List.Pairwise (fun a b => a.start < b.start)
      (normalizeTimingMap ["a"] [] none) ∧
    ∀ e ∈ normalizeTimingMap ["a"] [] none, e.start ≤ e.endTime :=
  normalizeTimingMap_total_monotone ["a"] [] none (by simp) (by simp) (by simp)

/-- C4 witness: the uniform-fallback theorem at the spec's scenario — a
5-word chunk with audio duration 2.5 yields the contiguous table
`[0, 0.5], [0.5, 1], [1, 1.5], [1.5, 2], [2, 2.5]`. -/
theorem normalizeTimingMap_empty_transcript_uniform_witness :
    normalizeTimingMap ["v", "w", "x", "y", "z"] [] (some (5/2))
      = (List.range (["v", "w", "x", "y", "z"] : List String).length).map
          (fun k => (⟨k, k * ((5/2) / (["v", "w", "x", "y", "z"] :
            List String).length),
            (k + 1) * ((5/2) / (["v", "w", "x", "y", "z"] :
              List String).length)⟩ : TimingEntry)) ∧
    normalizeTimingMap ["v", "w", "x", "y", "z"] [] (some (5/2))
      = [⟨0, 0, 1/2⟩, ⟨1, 1/2, 1⟩, ⟨2, 1, 3/2⟩, ⟨3, 3/2, 2⟩,
          ⟨4, 2, 5/2⟩] := by
  have h := normalizeTimingMap_empty_transcript_uniform
    ["v", "w", "x", "y", "z"] (5/2) (by simp) (by norm_num)
  refine ⟨h, ?_⟩
  rw [h]
  norm_num [List.range_succ]

theorem forwardFill_all_some (avg : ℚ) (entries : List (Option TimingEntry))
    (hall : ∀ k, k < entries.length → (entries.getD k none).isSome) :
    ∀ d i prev, entries.length - i ≤ d →
      forwardFill avg entries i prev = entries := by
  intro d
  induction d with
  | zero =>
    intro i prev hd
    rw [forwardFill, dif_neg (by omega)]
  | succ d ih =>
    intro i prev hd
    by_cases hi : i < entries.length
    · rw [forwardFill, dif_pos hi, if_pos (hall i hi)]
      exact ih (i + 1) i (by omega)
    · rw [forwardFill, dif_neg hi]

theorem fillRemaining_map_some (avg : ℚ) (l : List TimingEntry) :
    fillRemaining avg (l.map some) = l := by
  unfold fillRemaining
  refine List.ext_getElem (by simp) ?_
  intro k h1 h2
  rw [List.getElem_mapIdx, List.getElem_map]
  rfl

theorem insertEntries_of_graph (l : List TimingEntry) (n : ℕ)
    (hlen : l.length = n)
    (hg : ∀ k (hk : k < l.length), (l.get ⟨k, hk⟩).wordIndex = k) :
    insertEntries n l = l.map some := by
  have hidx : ∀ e ∈ l, e.wordIndex < n := by
    intro e he
    obtain ⟨⟨i, hi⟩, rfl⟩ := List.mem_iff_get.mp he
    rw [hg i hi, ← hlen]
    exact hi
  refine List.ext_getElem
    (by rw [insertEntries_length n l hidx, List.length_map, hlen]) ?_
  intro j h1 h2
  have hj : j < n := by
    rw [← insertEntries_length n l hidx]
    exact h1
  have hjl : j < l.length := by rw [hlen]; exact hj
  have hfind : l.reverse.find? (fun e => e.wordIndex == j)
      = some (l.get ⟨j, hjl⟩) := by
    cases hf : l.reverse.find? (fun e => e.wordIndex == j) with
    | none =>
      have := List.find?_eq_none.mp hf (l.get ⟨j, hjl⟩)
        (List.mem_reverse.mpr (l.get_mem j hjl))
      rw [hg j hjl] at this
      simp at this
    | some x =>
      have hx1 := List.find?_some hf
      have hx2 := List.mem_reverse.mp (List.mem_of_find?_eq_some hf)
      obtain ⟨⟨i, hi⟩, rfl⟩ := List.mem_iff_get.mp hx2
      have : i = j := by
        have := hg i hi
        simp only [beq_iff_eq] at hx1
        omega
      subst this
      rfl
  have hLHS : (insertEntries n l)[j] = (insertEntries n l).getD j none := by
    rw [List.getD_eq_getElem?_getD, List.getElem?_eq_getElem h1]
    rfl
  rw [hLHS, insertEntries_getD, hfind, List.getElem_map]
  rfl

theorem findIdx?_map_some_cons (e : TimingEntry) (l : List TimingEntry) :
    ((e :: l).map some).findIdx? Option.isSome = some 0 := by
  simp [List.findIdx?_cons]

theorem finalizePass_fixpoint (m : ℚ) :
    ∀ (l : List TimingEntry) (L : ℚ),
      (∀ e, l.head? = some e → L ≤ e.start) →
      List.Chain' (fun a b => a.endTime ≤ b.start) l →
      (∀ e ∈ l, e.start + m ≤ e.endTime) →
      finalizePass m L l = l := by
  intro l
  induction l with
  | nil => intro L _ _ _; rfl
  | cons e rest ih =>
    intro L hhead hchain hdur
    rw [finalizePass]
    have hs : max e.start L = e.start :=
      max_eq_left (hhead e rfl)
    rw [hs]
    have hen : max e.endTime (e.start + m) = e.endTime :=
      max_eq_left (hdur e (List.mem_cons_self e rest))
    rw [hen]
    have hrest : finalizePass m e.endTime rest = rest := by
      refine ih e.endTime ?_ (List.chain'_cons'.mp hchain).2
        (fun x hx => hdur x (List.mem_cons_of_mem _ hx))
      intro x hx
      exact (List.chain'_cons'.mp hchain).1 x hx
    rw [hrest]

/-- C5 (amended): re-normalizing the produced table (with no duration) is
the identity provided every entry of the first output is at least as long
as the minimum duration the second call would enforce — namely
`max(0.4 × mean duration of the output, 0.04)`.  Without that proviso the
final clamp of the second pass lengthens short entries (see the
counterexample). -/
theorem normalizeTimingMap_idempotent_amended (words : List String)
    (timingMap : List TimingEntry) (duration : Option ℚ)
    (hw : words ≠ [])
    (hidx : ∀ e ∈ timingMap, e.wordIndex < words.length)
    (hdur : ∀ d ∈ duration, 0 < d)
    (hfix : ∀ e ∈ normalizeTimingMap words timingMap duration,
      max (avgDuration words.length
        (normalizeTimingMap words timingMap duration) none * (2/5)) (1/25)
        ≤ e.endTime - e.start) :
    normalizeTimingMap words (normalizeTimingMap words timingMap duration)
      none = normalizeTimingMap words timingMap duration := by
  obtain ⟨hlen, hgr, hpair, hstrict, hnonneg, hgapless⟩ :=
    normalizeTimingMap_props words timingMap duration hw hidx hdur
  have hn : words.length ≠ 0 := by simpa [List.length_eq_zero] using hw
  set T := normalizeTimingMap words timingMap duration with hT
  have hTne : T ≠ [] := by
    intro hc
    rw [hc] at hlen
    exact hn hlen.symm
  have hins : insertEntries words.length T = T.map some :=
    insertEntries_of_graph T words.length hlen hgr
  obtain ⟨t0, rest, hTcons⟩ := List.exists_cons_of_ne_nil hTne
  have hfk : (insertEntries words.length T).findIdx? Option.isSome
      = some 0 := by
    rw [hins, hTcons]
    exact findIdx?_map_some_cons t0 rest
  rw [normalizeTimingMap_eq_of_findIdx?_some words T none 0 hn hfk]
  rw [hins]
  simp only [backfillDown]
  have hall : ∀ k, k < (T.map some).length →
      ((T.map some).getD k none).isSome := by
    intro k hk
    rw [List.getD_eq_getElem?_getD, List.getElem?_eq_getElem hk]
    simp
  rw [forwardFill_all_some _ _ hall ((T.map some).length) 1 0 (by omega)]
  rw [fillRemaining_map_some]
  refine finalizePass_fixpoint _ T 0 ?_ hgapless ?_
  · intro e he
    exact hnonneg e (List.mem_of_mem_head? he)
  · intro e he
    have := hfix e he
    linarith

theorem normalizeTimingMap_two (a b : TimingEntry)
    (ha : a.wordIndex = 0) (hb : b.wordIndex = 1) :
    normalizeTimingMap ["a", "b"] [a, b] none
      = finalizePass
          (max (avgDuration 2 [a, b] none * (2/5)) (1/25)) 0 [a, b] := by
  have hins : insertEntries 2 [a, b] = [some a, some b] := by
    simp [insertEntries, setEntry, ha, hb]
  have hfk : (insertEntries (["a", "b"] : List String).length
      [a, b]).findIdx? Option.isSome = some 0 := by
    show (insertEntries 2 [a, b]).findIdx? Option.isSome = some 0
    rw [hins]
    simp [List.findIdx?_cons]
  rw [normalizeTimingMap_eq_of_findIdx?_some ["a", "b"] [a, b] none 0
    (by simp) hfk]
  show finalizePass _ 0 (fillRemaining _
    (forwardFill _ (backfillDown _ 0 (insertEntries 2 [a, b])) 1 0)) = _
  rw [hins]
  simp only [backfillDown]
  have hall : ∀ k, k < ([some a, some b] :
      List (Option TimingEntry)).length →
      (([some a, some b] : List (Option TimingEntry)).getD k none).isSome := by
    intro k hk
    simp at hk
    match k, hk with
    | 0, _ => rfl
    | 1, _ => rfl
  rw [forwardFill_all_some _ _ hall 2 1 0 (by simp)]
  have hmap : ([some a, some b] : List (Option TimingEntry))
      = [a, b].map some := rfl
  rw [hmap, fillRemaining_map_some]
  rfl

/-- C5 (counterexample): with words `["a", "b"]` and sparse entries
`[(0, 0, 10), (1, 10, 11)]`, the first normalization clamps entry 1 to
duration `0.4 × avg = 2.2`, producing end `12.2`; re-normalizing that
output recomputes a larger average (durations 10 and 2.2), so the clamp
fires again and entry 1's end grows to `12.44` — the second call does not
reproduce the first call's table. -/
theorem normalizeTimingMap_idempotent_counterexample :
    normalizeTimingMap ["a", "b"]
        (normalizeTimingMap ["a", "b"] [⟨0, 0, 10⟩, ⟨1, 10, 11⟩] none) none
      ≠ normalizeTimingMap ["a", "b"] [⟨0, 0, 10⟩, ⟨1, 10, 11⟩] none := by
  have h1 : normalizeTimingMap ["a", "b"] [⟨0, 0, 10⟩, ⟨1, 10, 11⟩] none
      = [⟨0, 0, 10⟩, ⟨1, 10, 61/5⟩] := by
    rw [normalizeTimingMap_two ⟨0, 0, 10⟩ ⟨1, 10, 11⟩ rfl rfl]
    have havg : avgDuration 2 [⟨0, 0, 10⟩, ⟨1, 10, 11⟩] none = 11/2 := by
      rw [avgDuration]
      norm_num [posDurations]
    rw [havg]
    have hmd : max ((11:ℚ)/2 * (2/5)) (1/25) = 11/5 := by
      rw [max_eq_left (by norm_num)]
      norm_num
    rw [hmd]
    simp only [finalizePass]
    norm_num [max_def]
  have h2 : normalizeTimingMap ["a", "b"] [⟨0, 0, 10⟩, ⟨1, 10, 61/5⟩] none
      = [⟨0, 0, 10⟩, ⟨1, 10, 311/25⟩] := by
    rw [normalizeTimingMap_two ⟨0, 0, 10⟩ ⟨1, 10, 61/5⟩ rfl rfl]
    have havg : avgDuration 2 [⟨0, 0, 10⟩, ⟨1, 10, 61/5⟩] none = 61/10 := by
      rw [avgDuration]
      norm_num [posDurations]
    rw [havg]
    have hmd : max ((61:ℚ)/10 * (2/5)) (1/25) = 61/25 := by
      rw [max_eq_left (by norm_num)]
      norm_num
    rw [hmd]
    simp only [finalizePass]
    norm_num [max_def]
  rw [h1, h2]
  intro hcon
  simp only [List.cons.injEq, TimingEntry.mk.injEq] at hcon
  have := hcon.2.1.2.2
  norm_num at this

/-- C5 witness: the amended idempotence theorem applied to a one-word
list with no sparse entries: the produced single entry has duration
`0.35 ≥ max(0.4 × 0.35, 0.04) = 0.14`, so the fixed-point proviso holds
and re-normalization reproduces the table. -/
theorem normalizeTimingMap_idempotent_amended_witness :
    normalizeTimingMap ["a"] (normalizeTimingMap ["a"] [] none) none
      = normalizeTimingMap ["a"] [] none := by
  have hT : normalizeTimingMap ["a"] [] none = [⟨0, 0, 7/20⟩] := by
    have hfk : (insertEntries (["a"] : List String).length []).findIdx?
        Option.isSome = none := by
      rw [insertEntries]
      simp [List.findIdx?_replicate]
    rw [normalizeTimingMap_eq_of_findIdx?_none ["a"] [] none (by simp) hfk]
    have havg : avgDuration (["a"] : List String).length [] none = 7/20 := by
      rw [avgDuration]
      simp [posDurations, durTruthy]
    rw [show durTruthy none = false from rfl]
    simp only [Bool.false_eq_true, if_false]
    rw [havg]
    norm_num [List.range_succ]
  refine normalizeTimingMap_idempotent_amended ["a"] [] none (by simp)
    (by simp) (by simp) ?_
  intro e he
  rw [hT] at he
  simp at he
  subst he
  rw [hT]
  have havg2 : avgDuration (["a"] : List String).length [⟨0, 0, 7/20⟩] none
      = 7/20 := by
    rw [avgDuration]
    norm_num [posDurations]
  rw [havg2]
  simp only [max_le_iff]
  norm_num

/-! ## Aligner -/

/-- One transcript word from the Speech Service (`{ word, start, end }`;
absent timestamps default to 0 at normalization, modelled as plain
fields). -/
structure TranscriptWord where
  word : String
  start : ℚ
  endTime : ℚ
deriving Repr, DecidableEq

/-- A normalized transcript word as built at the top of `buildTimingMap`:
`{ text, start, end }`. -/
structure SttNorm where
  text : String
  start : ℚ
  endTime : ℚ
deriving Repr, DecidableEq

/-- The apostrophe variants `normalizeWord` unifies to `'`
(`ʼ ‘ ’ ′`). -/
def isApostropheVariant (c : Char) : Bool :=
  c = 'ʼ' || c = '‘' || c = '’' || c = '′'

/-- A word character for `normalizeWord`'s stripping step — the class
`[\p{L}\p{N}']`.  The Unicode letter/number categories are modelled by
`Char.isAlpha`/`Char.isDigit` (exact on ASCII words). -/
def isWordChar (c : Char) : Bool := c.isAlpha || c.isDigit || c = '\''

/-- `normalizeWord(text)`: lowercase, unify apostrophe variants, then
strip leading and trailing non-word characters. -/
def normalizeWord (text : String) : String :=
  let unified := (text.toList.map Char.toLower).map
    fun c => if isApostropheVariant c then '\'' else c
  String.mk
    (((unified.dropWhile fun c => !isWordChar c).reverse.dropWhile
      fun c => !isWordChar c).reverse)

/-- `skipEmptyStt`: advance the transcript cursor past entries whose
normalized text is empty. -/
def skipEmptyStt (ns : List SttNorm) (i : ℕ) : ℕ :=
  if h : i < ns.length then
    if (ns.getD i ⟨"", 0, 0⟩).text = "" then skipEmptyStt ns (i + 1) else i
  else i
termination_by ns.length - i

/-- `skipEmptyWord`: advance the original-word cursor past words whose
normalized text is empty. -/
def skipEmptyWord (nw : List String) (j : ℕ) : ℕ :=
  if h : j < nw.length then
    if nw.getD j "" = "" then skipEmptyWord nw (j + 1) else j
  else j
termination_by nw.length - j

theorem skipEmptyStt_le (ns : List SttNorm) (i : ℕ) :
    i ≤ skipEmptyStt ns i := by
  induction i using skipEmptyStt.induct ns with
  | case1 i h hempty ih =>
    rw [skipEmptyStt, dif_pos h, if_pos hempty]
    omega
  | case2 i h hempty =>
    rw [skipEmptyStt, dif_pos h, if_neg hempty]
  | case3 i h =>
    rw [skipEmptyStt, dif_neg h]

theorem skipEmptyWord_le (nw : List String) (j : ℕ) :
    j ≤ skipEmptyWord nw j := by
  induction j using skipEmptyWord.induct nw with
  | case1 j h hempty ih =>
    rw [skipEmptyWord, dif_pos h, if_pos hempty]
    omega
  | case2 j h hempty =>
    rw [skipEmptyWord, dif_pos h, if_neg hempty]
  | case3 j h =>
    rw [skipEmptyWord, dif_neg h]

/-- The transcript-side lookahead: scan up to `LOOKAHEAD = 3` positions
ahead for a non-empty normalized transcript word equal to the current
original word. -/
def sttLookahead (ns : List SttNorm) (i : ℕ) (s : String) : Option ℕ :=
  (List.range' 1 3).find? fun wi =>
    decide (i + wi < ns.length) &&
      ((ns.getD (i + wi) ⟨"", 0, 0⟩).text != "") &&
      ((ns.getD (i + wi) ⟨"", 0, 0⟩).text == s)

/-- The original-side lookahead: scan up to 3 positions ahead for a
non-empty normalized original word equal to the current transcript
word. -/
def wordLookahead (nw : List String) (j : ℕ) (w : String) : Option ℕ :=
  (List.range' 1 3).find? fun sj =>
    decide (j + sj < nw.length) && ((nw.getD (j + sj) "") != "") &&
      ((nw.getD (j + sj) "") == w)

theorem sttLookahead_pos {ns : List SttNorm} {i : ℕ} {s : String} {wi : ℕ}
    (h : sttLookahead ns i s = some wi) : 1 ≤ wi := by
  have := List.mem_of_find?_eq_some h
  simp [List.mem_range'] at this
  omega

theorem wordLookahead_pos {nw : List String} {j : ℕ} {w : String} {sj : ℕ}
    (h : wordLookahead nw j w = some sj) : 1 ≤ sj := by
  have := List.mem_of_find?_eq_some h
  simp [List.mem_range'] at this
  omega

/-- The two-cursor alignment loop of `buildTimingMap`: on an exact match
emit the pairing and advance both cursors; otherwise try the transcript
lookahead, then the original lookahead; failing both, force-emit the
pairing and advance both cursors. -/
def alignGo (ns : List SttNorm) (nw : List String) (i j : ℕ) :
    List TimingEntry :=
  if h : i < ns.length ∧ j < nw.length then
    if nw.getD j "" = "" then alignGo ns nw i (skipEmptyWord nw (j + 1))
    else if (ns.getD i ⟨"", 0, 0⟩).text = "" then
      alignGo ns nw (skipEmptyStt ns (i + 1)) j
    else if (ns.getD i ⟨"", 0, 0⟩).text = nw.getD j "" then
      ⟨j, (ns.getD i ⟨"", 0, 0⟩).start, (ns.getD i ⟨"", 0, 0⟩).endTime⟩ ::
        alignGo ns nw (skipEmptyStt ns (i + 1)) (skipEmptyWord nw (j + 1))
    else
      match hwa : sttLookahead ns i (nw.getD j "") with
      | some wi => alignGo ns nw (skipEmptyStt ns (i + wi)) j
      | none =>
        match hsa : wordLookahead nw j (ns.getD i ⟨"", 0, 0⟩).text with
        | some sj => alignGo ns nw i (skipEmptyWord nw (j + sj))
        | none =>
          ⟨j, (ns.getD i ⟨"", 0, 0⟩).start,
              (ns.getD i ⟨"", 0, 0⟩).endTime⟩ ::
            alignGo ns nw (skipEmptyStt ns (i + 1)) (skipEmptyWord nw (j + 1))
  else []
termination_by (ns.length - i) + (nw.length - j)
decreasing_by
  · have := skipEmptyWord_le nw (j + 1)
    omega
  · have := skipEmptyStt_le ns (i + 1)
    omega
  · have h1 := skipEmptyStt_le ns (i + 1)
    have h2 := skipEmptyWord_le nw (j + 1)
    omega
  · have h1 := sttLookahead_pos hwa
    have h2 := skipEmptyStt_le ns (i + wi)
    omega
  · have h1 := wordLookahead_pos hsa
    have h2 := skipEmptyWord_le nw (j + sj)
    omega
  · have h1 := skipEmptyStt_le ns (i + 1)
    have h2 := skipEmptyWord_le nw (j + 1)
    omega

/-- `buildTimingMap(words, sttWords)` from the source: normalize both
sides, then run the two-cursor walk from the first non-empty entries. -/
def buildTimingMap (words : List String)
    (sttWords : List TranscriptWord) : List TimingEntry :=
  if sttWords = [] then []
  else
    let normalizedWords := words.map normalizeWord
    let normalizedStt := sttWords.map fun w =>
      (⟨normalizeWord w.word, w.start, w.endTime⟩ : SttNorm)
    alignGo normalizedStt normalizedWords
      (skipEmptyStt normalizedStt 0) (skipEmptyWord normalizedWords 0)

theorem alignGo_spec (ns : List SttNorm) (nw : List String) :
    ∀ i j,
      (∀ e ∈ alignGo ns nw i j,
        j ≤ e.wordIndex ∧ e.wordIndex < nw.length ∧
        ∃ t ∈ ns, e.start = t.start ∧ e.endTime = t.endTime) ∧
      List.Pairwise (fun a b => a.wordIndex < b.wordIndex)
        (alignGo ns nw i j) := by
  intro i j
  induction i, j using alignGo.induct ns nw with
  | case1 i j h hs ih =>
    rw [alignGo, dif_pos h, if_pos hs]
    obtain ⟨ih1, ih2⟩ := ih
    refine ⟨fun e he => ?_, ih2⟩
    obtain ⟨he1, he2, he3⟩ := ih1 e he
    have := skipEmptyWord_le nw (j + 1)
    exact ⟨by omega, he2, he3⟩
  | case2 i j h hs hw ih =>
    rw [alignGo, dif_pos h, if_neg hs, if_pos hw]
    exact ih
  | case3 i j h hs hw heq ih =>
    rw [alignGo, dif_pos h, if_neg hs, if_neg hw, if_pos heq]
    obtain ⟨ih1, ih2⟩ := ih
    constructor
    · intro e he
      rcases List.mem_cons.mp he with rfl | he
      · refine ⟨le_refl _, h.2, ⟨ns.getD i ⟨"", 0, 0⟩, ?_, rfl, rfl⟩⟩
        rw [List.getD_eq_getElem?_getD, List.getElem?_eq_getElem h.1]
        exact List.getElem_mem h.1
      · obtain ⟨he1, he2, he3⟩ := ih1 e he
        have := skipEmptyWord_le nw (j + 1)
        exact ⟨by omega, he2, he3⟩
    · refine List.pairwise_cons.mpr ⟨?_, ih2⟩
      intro b hb
      have := (ih1 b hb).1
      have h2 := skipEmptyWord_le nw (j + 1)
      simp only
      omega
  | case4 i j h hs hw heq wi hwa ih =>
    rw [alignGo, dif_pos h, if_neg hs, if_neg hw, if_neg heq]
    rw [hwa]
    exact ih
  | case5 i j h hs hw heq hwa sj hsa ih =>
    rw [alignGo, dif_pos h, if_neg hs, if_neg hw, if_neg heq]
    rw [hwa, hsa]
    obtain ⟨ih1, ih2⟩ := ih
    refine ⟨fun e he => ?_, ih2⟩
    obtain ⟨he1, he2, he3⟩ := ih1 e he
    have h1 := wordLookahead_pos hsa
    have h2 := skipEmptyWord_le nw (j + sj)
    exact ⟨by omega, he2, he3⟩
  | case6 i j h hs hw heq hwa hsa ih =>
    rw [alignGo, dif_pos h, if_neg hs, if_neg hw, if_neg heq]
    rw [hwa, hsa]
    obtain ⟨ih1, ih2⟩ := ih
    constructor
    · intro e he
      rcases List.mem_cons.mp he with rfl | he
      · refine ⟨le_refl _, h.2, ⟨ns.getD i ⟨"", 0, 0⟩, ?_, rfl, rfl⟩⟩
        rw [List.getD_eq_getElem?_getD, List.getElem?_eq_getElem h.1]
        exact List.getElem_mem h.1
      · obtain ⟨he1, he2, he3⟩ := ih1 e he
        have := skipEmptyWord_le nw (j + 1)
        exact ⟨by omega, he2, he3⟩
    · refine List.pairwise_cons.mpr ⟨?_, ih2⟩
      intro b hb
      have := (ih1 b hb).1
      have h2 := skipEmptyWord_le nw (j + 1)
      simp only
      omega
  | case7 i j h =>
    rw [alignGo, dif_neg h]
    exact ⟨fun e he => absurd he (List.not_mem_nil e), List.Pairwise.nil⟩

/-- C9: every entry emitted by the aligner has `wordIndex` within
`[0, words.length)`, and — given that every source transcript word has
non-negative timestamps with `end ≥ start` — non-negative `start`/`end`
with `end ≥ start` (the timestamps are copied from transcript words). -/
theorem buildTimingMap_bounds (words : List String)
    (sttWords : List TranscriptWord)
    (hstt : ∀ t ∈ sttWords, 0 ≤ t.start ∧ t.start ≤ t.endTime) :
    ∀ e ∈ buildTimingMap words sttWords,
      e.wordIndex < words.length ∧ 0 ≤ e.start ∧ 0 ≤ e.endTime ∧
        e.start ≤ e.endTime := by
  intro e he
  unfold buildTimingMap at he
  split at he
  · exact absurd he (List.not_mem_nil e)
  · obtain ⟨-, hlt, t, ht, hts, hte⟩ :=
      (alignGo_spec _ _ _ _).1 e he
    rw [List.length_map] at hlt
    simp only [List.mem_map] at ht
    obtain ⟨tw, htw, rfl⟩ := ht
    obtain ⟨h0, hle⟩ := hstt tw htw
    simp only at hts hte
    refine ⟨hlt, ?_, ?_, ?_⟩
    · rw [hts]; exact h0
    · rw [hte]; linarith
    · rw [hts, hte]; exact hle

/-- C9 witness: the aligner bound theorem applied to a one-word original
list and a one-word transcript with timestamps `[0, 1]`. -/
theorem buildTimingMap_bounds_witness :
    (∀ t ∈ ([⟨"hello", 0, 1⟩] : List TranscriptWord),
      0 ≤ t.start ∧ t.start ≤ t.endTime) ∧
    ∀ e ∈ buildTimingMap ["Hello"] [⟨"hello", 0, 1⟩],
      e.wordIndex < (["Hello"] : List String).length ∧ 0 ≤ e.start ∧
        0 ≤ e.endTime ∧ e.start ≤ e.endTime := by
  have hstt : ∀ t ∈ ([⟨"hello", 0, 1⟩] : List TranscriptWord),
      0 ≤ t.start ∧ t.start ≤ t.endTime := by
    intro t ht
    rw [List.mem_singleton] at ht
    subst ht
    exact ⟨le_refl 0, by norm_num⟩
  exact ⟨hstt, buildTimingMap_bounds ["Hello"] [⟨"hello", 0, 1⟩] hstt⟩

/-- C10: the aligner's output is strictly ordered — the `wordIndex`
values across the entries returned by `buildTimingMap` are strictly
increasing, so no original word index receives two entries and the
alignment never moves backward. -/
theorem buildTimingMap_strictly_ordered (words : List String)
    (sttWords : List TranscriptWord) :
    List.Pairwise (fun a b => a.wordIndex < b.wordIndex)
      (buildTimingMap words sttWords) := by
  unfold buildTimingMap
  split
  · exact List.Pairwise.nil
  · exact (alignGo_spec _ _ _ _).2

/-! ## Roam debounce (Navigation State Machine) -/

/-- `ROAM_DEBOUNCE_MS` from the source. -/
def ROAM_DEBOUNCE_MS : ℕ := 300

/-- The debounce-relevant slice of the Session's roam sub-state plus the
side-effect log: the monotonically increasing `debounceToken`, the
pending `setTimeout` (fire time and the token it captured), the
landed-on word index, and the synthesis requests / cache playbacks
issued so far. -/
structure RoamSim where
  debounceToken : ℕ
  debounceTimer : Option (ℕ × ℕ)
  currentWordIndex : ℕ
  requests : List ℕ
  playbacks : List ℕ
deriving Repr, DecidableEq

/-- `startRoamPlayback(token)`: return if the token was superseded;
otherwise resolve the chunk of the current word through the region's
word→chunk map, play from the chunk-result cache on a hit, and issue a
synthesis request (`requestChunkPlayback`) on a miss. -/
def startRoamPlayback (wordToChunkIndex : ℕ → ℕ) (cached : ℕ → Bool)
    (token : ℕ) (st : RoamSim) : RoamSim :=
  if st.debounceToken ≠ token then st
  else
    let chunkIndex := wordToChunkIndex st.currentWordIndex
    if cached chunkIndex then
      { st with playbacks := st.playbacks ++ [chunkIndex] }
    else
      { st with requests := st.requests ++ [chunkIndex] }

/-- `scheduleRoamPlayback()` at time `now`: clear any pending timer, bump
the token, and schedule `startRoamPlayback` for
`now + ROAM_DEBOUNCE_MS` with the new token captured. -/
def scheduleRoamPlayback (now : ℕ) (st : RoamSim) : RoamSim :=
  { st with
    debounceToken := st.debounceToken + 1,
    debounceTimer := some (now + ROAM_DEBOUNCE_MS, st.debounceToken + 1) }

/-- The debounce-relevant effect of `abortRoamPlayback()`: clear the
pending timer and bump the token, superseding any in-flight request. -/
def abortRoamPlayback (st : RoamSim) : RoamSim :=
  { st with debounceToken := st.debounceToken + 1, debounceTimer := none }

/-- Event-loop delivery of a due timer at time `now`: a pending
`setTimeout` whose fire time has arrived runs its callback (which checks
the captured token and calls `startRoamPlayback`); a cleared or
not-yet-due timer does nothing. -/
def fireDueTimer (w : ℕ → ℕ) (c : ℕ → Bool) (now : ℕ) (st : RoamSim) :
    RoamSim :=
  match st.debounceTimer with
  | none => st
  | some (t, tok) =>
    if t ≤ now then startRoamPlayback w c tok { st with debounceTimer := none }
    else st

/-- One roam step (`handleRoamNavigation`) at time `now` landing on word
`idx`: a timer already due fires first (event-loop order), then the step
aborts any pending roam playback, moves the current word, and schedules
a new debounce. -/
def roamStep (w : ℕ → ℕ) (c : ℕ → Bool) (idx now : ℕ) (st : RoamSim) :
    RoamSim :=
  scheduleRoamPlayback now
    { abortRoamPlayback (fireDueTimer w c now st) with
        currentWordIndex := idx }

/-- A burst of roam steps `(word, time)` followed by waiting until
`endTime`: process each step in order, then deliver the surviving timer
at `endTime`. -/
def roamRun (w : ℕ → ℕ) (c : ℕ → Bool) (steps : List (ℕ × ℕ))
    (endTime : ℕ) (st : RoamSim) : RoamSim :=
  fireDueTimer w c endTime (steps.foldl (fun s p => roamStep w c p.1 p.2 s) st)

/-- The roam sub-state as `enterRoamMode` finds it before a burst:
no pending timer, nothing issued. -/
def roamInit (tok idx : ℕ) : RoamSim := ⟨tok, none, idx, [], []⟩

theorem fireDueTimer_not_due (w : ℕ → ℕ) (c : ℕ → Bool) (now : ℕ)
    (st : RoamSim)
    (hno : ∀ t tok, st.debounceTimer = some (t, tok) → now < t) :
    fireDueTimer w c now st = st := by
  unfold fireDueTimer
  cases htm : st.debounceTimer with
  | none => rfl
  | some p =>
    obtain ⟨t, tok⟩ := p
    dsimp only
    rw [if_neg (not_le.mpr (hno t tok htm))]

theorem roamStep_fresh (w : ℕ → ℕ) (c : ℕ → Bool) (idx now : ℕ)
    (st : RoamSim)
    (hno : ∀ t tok, st.debounceTimer = some (t, tok) → now < t) :
    roamStep w c idx now st
      = { debounceToken := st.debounceToken + 2,
          debounceTimer := some (now + ROAM_DEBOUNCE_MS,
            st.debounceToken + 2),
          currentWordIndex := idx,
          requests := st.requests,
          playbacks := st.playbacks } := by
  unfold roamStep
  rw [fireDueTimer_not_due w c now st hno]
  rfl

theorem fireDueTimer_due (w : ℕ → ℕ) (c : ℕ → Bool) (now : ℕ)
    (st : RoamSim) (t tok : ℕ)
    (htm : st.debounceTimer = some (t, tok)) (hdue : t ≤ now)
    (htok : st.debounceToken = tok)
    (hc : c (w st.currentWordIndex) = false) :
    fireDueTimer w c now st
      = { st with
          debounceTimer := none,
          requests := st.requests ++ [w st.currentWordIndex] } := by
  unfold fireDueTimer startRoamPlayback
  rw [htm]
  dsimp only
  rw [if_pos hdue, if_neg (by simp [htok]), if_neg (by simp [hc])]

/-- C7: five rapid directional roam steps, each arriving before the
previous step's 300-unit debounce delay expires, issue exactly one
synthesis request, and it is for the chunk containing the final
landed-on word; every earlier step's pending timer/token is superseded
and issues no request. -/
theorem roam_debounce_five_steps (w : ℕ → ℕ) (c : ℕ → Bool)
    (i1 i2 i3 i4 i5 t1 t2 t3 t4 t5 endTime tok0 idx0 : ℕ)
    (h12 : t2 < t1 + ROAM_DEBOUNCE_MS) (h23 : t3 < t2 + ROAM_DEBOUNCE_MS)
    (h34 : t4 < t3 + ROAM_DEBOUNCE_MS) (h45 : t5 < t4 + ROAM_DEBOUNCE_MS)
    (hend : t5 + ROAM_DEBOUNCE_MS ≤ endTime)
    (hc : c (w i5) = false) :
    (roamRun w c [(i1, t1), (i2, t2), (i3, t3), (i4, t4), (i5, t5)]
        endTime (roamInit tok0 idx0)).requests = [w i5] ∧
    (roamRun w c [(i1, t1), (i2, t2), (i3, t3), (i4, t4), (i5, t5)]
        endTime (roamInit tok0 idx0)).playbacks = [] := by
  have e1 : roamStep w c i1 t1 (roamInit tok0 idx0)
      = ⟨tok0 + 2, some (t1 + ROAM_DEBOUNCE_MS, tok0 + 2), i1, [], []⟩ := by
    rw [roamStep_fresh w c i1 t1 (roamInit tok0 idx0)
      (by intro t tok h; simp [roamInit] at h)]
    rfl
  have e2 : roamStep w c i2 t2
      (⟨tok0 + 2, some (t1 + ROAM_DEBOUNCE_MS, tok0 + 2), i1, [], []⟩ :
        RoamSim)
      = ⟨tok0 + 4, some (t2 + ROAM_DEBOUNCE_MS, tok0 + 4), i2, [], []⟩ := by
    rw [roamStep_fresh w c i2 t2 _
      (by intro t tok h; simp at h; omega)]
  have e3 : roamStep w c i3 t3
      (⟨tok0 + 4, some (t2 + ROAM_DEBOUNCE_MS, tok0 + 4), i2, [], []⟩ :
        RoamSim)
      = ⟨tok0 + 6, some (t3 + ROAM_DEBOUNCE_MS, tok0 + 6), i3, [], []⟩ := by
    rw [roamStep_fresh w c i3 t3 _
      (by intro t tok h; simp at h; omega)]
  have e4 : roamStep w c i4 t4
      (⟨tok0 + 6, some (t3 + ROAM_DEBOUNCE_MS, tok0 + 6), i3, [], []⟩ :
        RoamSim)
      = ⟨tok0 + 8, some (t4 + ROAM_DEBOUNCE_MS, tok0 + 8), i4, [], []⟩ := by
    rw [roamStep_fresh w c i4 t4 _
      (by intro t tok h; simp at h; omega)]
  have e5 : roamStep w c i5 t5
      (⟨tok0 + 8, some (t4 + ROAM_DEBOUNCE_MS, tok0 + 8), i4, [], []⟩ :
        RoamSim)
      = ⟨tok0 + 10, some (t5 + ROAM_DEBOUNCE_MS, tok0 + 10), i5, [], []⟩ := by
    rw [roamStep_fresh w c i5 t5 _
      (by intro t tok h; simp at h; omega)]
  have hrun : roamRun w c [(i1, t1), (i2, t2), (i3, t3), (i4, t4), (i5, t5)]
      endTime (roamInit tok0 idx0)
      = fireDueTimer w c endTime
          (roamStep w c i5 t5 (roamStep w c i4 t4 (roamStep w c i3 t3
            (roamStep w c i2 t2 (roamStep w c i1 t1
              (roamInit tok0 idx0)))))) := rfl
  rw [hrun, e1, e2, e3, e4, e5]
  rw [fireDueTimer_due w c endTime
    (⟨tok0 + 10, some (t5 + ROAM_DEBOUNCE_MS, tok0 + 10), i5, [], []⟩ :
      RoamSim)
    (t5 + ROAM_DEBOUNCE_MS) (tok0 + 10) rfl hend rfl hc]
  simp

/-- C7 witness: the debounce theorem at a concrete burst — steps landing
on words 1..5 at times 0, 100, 200, 300, 400 (gaps below 300), flushed
at time 1000, with the identity word→chunk map and an empty cache. -/
theorem roam_debounce_five_steps_witness :
    (roamRun (fun x => x) (fun _ => false)
        [(1, 0), (2, 100), (3, 200), (4, 300), (5, 400)] 1000
        (roamInit 0 0)).requests = [5] ∧
    (roamRun (fun x => x) (fun _ => false)
        [(1, 0), (2, 100), (3, 200), (4, 300), (5, 400)] 1000
        (roamInit 0 0)).playbacks = [] :=
  roam_debounce_five_steps (fun x => x) (fun _ => false)
    1 2 3 4 5 0 100 200 300 400 1000 0 0
    (by decide) (by decide) (by decide) (by decide) (by decide) (by decide)

/-! ## Session error handling -/

/-- The roam sub-state of a Session relevant to error handling: whether
roam mode is active, the current region (abstracted to an identifier),
the current word index, the pending debounce timer, and the token. -/
structure RoamState where
  active : Bool
  currentElement : ℕ
  currentWordIndex : Option ℕ
  debounceTimer : Option ℕ
  debounceToken : ℕ
deriving Repr, DecidableEq

/-- The Session fields touched by `stopSession` and the two chunk-error
handlers. -/
structure Session where
  cancelled : Bool
  done : Bool
  userPaused : Bool
  highlightRunning : Bool
  generateIndicator : Bool
  roam : RoamState
deriving Repr, DecidableEq

/-- `stopSession(reason)`: mark cancelled, clear the debounce timer,
leave roam mode, reset audio/highlight/indicator state, and either keep
the session with `done = true` (reason `"done"`) or release it
(`session = null`, modelled `none`).  Returns the mutated record
together with the resulting global `session`. -/
def stopSession (reason : String) (s : Session) : Session × Option Session :=
  let keepHighlight := reason = "done"
  let s1 : Session :=
    { s with
      cancelled := true,
      userPaused := false,
      highlightRunning := false,
      generateIndicator := false,
      roam := { s.roam with debounceTimer := none, active := false } }
  if keepHighlight then
    let s2 := { s1 with done := true }
    (s2, some s2)
  else (s1, none)

/-- The `onError` handler of `speakParagraph`'s linear chunk stream:
`stopSession("error")`, then surface the failure once via a toast.
Returns the resulting global session and the surfaced messages. -/
def speakParagraphOnError (s : Session) (errMsg : String) :
    Option Session × List String :=
  ((stopSession "error" s).2, [errMsg])

/-- The `onError` handler installed by `requestChunkPlayback` during
roam: a superseded token is ignored entirely; otherwise the generate
indicator is cleared and the failure surfaced — the session and its roam
position survive untouched. -/
def requestChunkPlaybackOnError (token : ℕ) (s : Session)
    (errMsg : String) : Option Session × List String :=
  if s.roam.debounceToken ≠ token then (some s, [])
  else (some { s with generateIndicator := false }, [errMsg])

/-- C8: a chunk error during linear playback aborts the Session — it is
cancelled, its roam/debounce state is torn down, the global session is
released — and the failure is surfaced exactly once; the same error
during roam playback (current token) is surfaced once but leaves the
Session alive with its roam state — current element and current word
index — and cancellation flag unchanged, while a superseded roam error
is dropped entirely. -/
theorem chunk_error_by_mode (s : Session) (token : ℕ) (msg : String) :
    ((stopSession "error" s).1.cancelled = true ∧
      (stopSession "error" s).1.roam.active = false ∧
      (stopSession "error" s).1.roam.debounceTimer = none ∧
      (speakParagraphOnError s msg).1 = none ∧
      (speakParagraphOnError s msg).2 = [msg]) ∧
    (s.roam.debounceToken = token →
      (requestChunkPlaybackOnError token s msg).1
          = some { s with generateIndicator := false } ∧
      ((requestChunkPlaybackOnError token s msg).1.map Session.roam
          = some s.roam) ∧
      ((requestChunkPlaybackOnError token s msg).1.map
          (fun x => x.roam.currentElement) = some s.roam.currentElement) ∧
      ((requestChunkPlaybackOnError token s msg).1.map
          (fun x => x.roam.currentWordIndex)
          = some s.roam.currentWordIndex) ∧
      ((requestChunkPlaybackOnError token s msg).1.map Session.cancelled
          = some s.cancelled) ∧
      (requestChunkPlaybackOnError token s msg).2 = [msg]) ∧
    (s.roam.debounceToken ≠ token →
      (requestChunkPlaybackOnError token s msg).1 = some s ∧
      (requestChunkPlaybackOnError token s msg).2 = []) := by
  refine ⟨⟨rfl, rfl, rfl, rfl, rfl⟩, ?_, ?_⟩
  · intro h
    unfold requestChunkPlaybackOnError
    rw [if_neg (by simp [h])]
    exact ⟨rfl, rfl, rfl, rfl, rfl, rfl⟩
  · intro h
    unfold requestChunkPlaybackOnError
    rw [if_pos h]
    exact ⟨rfl, rfl⟩

/-- C8 witness: the mode-dependent error handling applied to a concrete
live roaming session and a matching token. -/
theorem chunk_error_by_mode_witness :
    ((stopSession "error"
        ⟨false, false, false, true, true, ⟨true, 3, some 7, some 1, 5⟩⟩).2
      = none) ∧
    ((requestChunkPlaybackOnError 5
        ⟨false, false, false, true, true, ⟨true, 3, some 7, some 1, 5⟩⟩
        "Groq request failed").1.map (fun x => x.roam.currentWordIndex)
      = some (some 7)) ∧
    ((requestChunkPlaybackOnError 5
        ⟨false, false, false, true, true, ⟨true, 3, some 7, some 1, 5⟩⟩
        "Groq request failed").2 = ["Groq request failed"]) := by
  have h := chunk_error_by_mode
    ⟨false, false, false, true, true, ⟨true, 3, some 7, some 1, 5⟩⟩ 5
    "Groq request failed"
  exact ⟨h.1.2.2.2.1, (h.2.1 rfl).2.2.2.1, (h.2.1 rfl).2.2.2.2.2⟩

end ImmersiveSpeak
